import Mathlib

/-!
Verification of the `PlanReflectionPlanner` from
`src/google/adk/planners/plan_reflection_planner.py`.

The Python module defines six tag constants, an instruction builder that
joins seven fixed prose blocks, and a response segmenter
(`process_planning_response`) that scans `types.Part` fragments, drops
empty-named function calls, classifies text fragments (splitting at the
last `/*FINAL_ANSWER*/` occurrence or marking narrative-tag prefixes as
thought), and after the first kept function call at positive index runs a
lookahead appending consecutive function-call parts.

Strings are embedded as `List Char`.  Python's in-place mutation of parts
is made explicit: the segmenter returns both the post-call state of the
caller's part list and a list of output elements, each either `OutElem.ref
i` (an alias of the caller's part at index `i`) or `OutElem.new p` (a part
constructed inside the call).  Resolving the output elements against the
post-call state yields the value-level output list.
-/

namespace PlanReflection

/-- Tag constant `PLANNING_TAG = '/*PLANNING*/'`. -/
def PLANNING_TAG : List Char := "/*PLANNING*/".toList

/-- Tag constant `REASONING_TAG = '/*REASONING*/'`. -/
def REASONING_TAG : List Char := "/*REASONING*/".toList

/-- Tag constant `ACTION_TAG = '/*ACTION*/'`. -/
def ACTION_TAG : List Char := "/*ACTION*/".toList

/-- Tag constant `REFLECTION_TAG = '/*REFLECTION*/'`. -/
def REFLECTION_TAG : List Char := "/*REFLECTION*/".toList

/-- Tag constant `REPLANNING_TAG = '/*REPLANNING*/'`. -/
def REPLANNING_TAG : List Char := "/*REPLANNING*/".toList

/-- Tag constant `FINAL_ANSWER_TAG = '/*FINAL_ANSWER*/'`. -/
def FINAL_ANSWER_TAG : List Char := "/*FINAL_ANSWER*/".toList

/-- The `name` field of `google.genai.types.FunctionCall` (optional string). -/
structure FunctionCall where
  name : Option (List Char) := none
deriving Repr, DecidableEq

/-- The fields of `google.genai.types.Part` that the planner reads or
writes: `function_call`, `text` and `thought`. -/
structure Part where
  function_call : Option FunctionCall := none
  text : Option (List Char) := none
  thought : Option Bool := none
deriving Repr, DecidableEq, Inhabited

/-- Python truthiness of an optional string: `None` and `''` are falsy. -/
def optStrTruthy : Option (List Char) → Bool
  | none => false
  | some s => !s.isEmpty

/-- One element appended to `preserved_parts`: either an alias of the
caller's part at input index `i` (Python appends the object itself) or a
part newly constructed inside the call (`types.Part(text=...)`). -/
inductive OutElem where
  | ref : Nat → OutElem
  | new : Part → OutElem
deriving Repr, DecidableEq

/-- Search for the largest start index `i ≤ n` at which `separator` is a
prefix of `text.drop i`; models the search of Python `str.rfind`. -/
def rfindAux (text separator : List Char) : Nat → Option Nat
  | 0 => if separator.isPrefixOf (text.drop 0) then some 0 else none
  | i + 1 =>
      if separator.isPrefixOf (text.drop (i + 1)) then some (i + 1)
      else rfindAux text separator i

/-- Index of the last occurrence of `separator` in `text`
(Python `text.rfind(separator)`, with `none` for `-1`). -/
def rfind (text separator : List Char) : Option Nat :=
  rfindAux text separator text.length

/-- `_split_by_last_pattern`: splits the text by the last occurrence of the
separator; `(text, '')` when the separator does not occur. -/
def _split_by_last_pattern (text separator : List Char) : List Char × List Char :=
  match rfind text separator with
  | none => (text, [])
  | some index =>
      (text.take (index + separator.length), text.drop (index + separator.length))

/-- Python substring test `separator in text`: some start position in
`0..text.length` begins an occurrence of `separator`. -/
def containsSub (text separator : List Char) : Bool :=
  (List.range (text.length + 1)).any (fun i => separator.isPrefixOf (text.drop i))

/-- The `any(response_text.startswith(tag) for tag in [...])` test of
`_handle_non_function_call_parts`, over the five narrative tags. -/
def startsWithAnyNarrativeTag (response_text : List Char) : Bool :=
  [PLANNING_TAG, REASONING_TAG, ACTION_TAG, REFLECTION_TAG,
    REPLANNING_TAG].any (fun tag => tag.isPrefixOf response_text)

/-- `_mark_as_thought`: sets `thought = True` when the part has truthy
text, otherwise leaves the part unchanged. -/
def _mark_as_thought (response_part : Part) : Part :=
  if optStrTruthy response_part.text then { response_part with thought := some true }
  else response_part

/-- `_handle_non_function_call_parts`: classification of one
non-function-call part.  Returns the (possibly mutated) value of the
caller's part together with the elements appended to `preserved_parts`;
`off` is the index of the part in the caller's list, used for aliases. -/
def _handle_non_function_call_parts (off : Nat) (response_part : Part) :
    Part × List OutElem :=
  if optStrTruthy response_part.text &&
      containsSub (response_part.text.getD []) FINAL_ANSWER_TAG then
    let reasoning_text :=
      (_split_by_last_pattern (response_part.text.getD []) FINAL_ANSWER_TAG).1
    let final_answer_text :=
      (_split_by_last_pattern (response_part.text.getD []) FINAL_ANSWER_TAG).2
    (response_part,
      (if reasoning_text.isEmpty then []
       else [OutElem.new (_mark_as_thought
         { function_call := none, text := some reasoning_text, thought := none })]) ++
      (if final_answer_text.isEmpty then []
       else [OutElem.new
         { function_call := none, text := some final_answer_text, thought := none }]))
  else
    let response_text := response_part.text.getD []
    let marked :=
      if !response_text.isEmpty && startsWithAnyNarrativeTag response_text then
        _mark_as_thought response_part
      else response_part
    (marked, [OutElem.ref off])

/-- The initial `for i in range(len(response_parts))` loop of
`process_planning_response`, scanning the sublist starting at index `off`.
Returns the post-loop values of the scanned parts, the elements appended
to `preserved_parts`, and `first_fc_part_index` (`none` for `-1`).
Function-call parts with falsy names are skipped; the first function-call
part with a truthy name is appended as an alias and the loop breaks,
leaving the rest of the list untouched. -/
def scanPhase (off : Nat) : List Part → List Part × List OutElem × Option Nat
  | [] => ([], [], none)
  | p :: rest =>
      match p.function_call with
      | some fc =>
          if optStrTruthy fc.name then (p :: rest, [OutElem.ref off], some off)
          else
            let r := scanPhase (off + 1) rest
            (p :: r.1, r.2.1, r.2.2)
      | none =>
          let h := _handle_non_function_call_parts off p
          let r := scanPhase (off + 1) rest
          (h.1 :: r.1, h.2 ++ r.2.1, r.2.2)

/-- The `while j < len(response_parts)` lookahead loop: appends aliases of
consecutive function-call parts (regardless of name) starting at index
`off`, stopping at the first non-function-call part. -/
def lookaheadPhase (off : Nat) : List Part → List OutElem
  | [] => []
  | p :: rest =>
      match p.function_call with
      | some _ => OutElem.ref off :: lookaheadPhase (off + 1) rest
      | none => []

/-- `process_planning_response`, aliasing-aware form: returns `none` for
empty input, otherwise the post-call state of the caller's part list
together with the elements of `preserved_parts`. -/
def process_planning_response_aliased (response_parts : List Part) :
    Option (List Part × List OutElem) :=
  if response_parts.isEmpty then none
  else
    let r := scanPhase 0 response_parts
    match r.2.2 with
    | some i =>
        if 0 < i then some (r.1, r.2.1 ++ lookaheadPhase (i + 1) (r.1.drop (i + 1)))
        else some (r.1, r.2.1)
    | none => some (r.1, r.2.1)

/-- Resolve an output element against the post-call state of the caller's
part list: an alias denotes the part currently stored at its index. -/
def resolveElem (state : List Part) : OutElem → Part
  | OutElem.ref i => state.getD i default
  | OutElem.new p => p

/-- `process_planning_response` as a value-level function: the list of
part values returned to the caller (`None` for empty input). -/
def process_planning_response (response_parts : List Part) : Option (List Part) :=
  (process_planning_response_aliased response_parts).map
    (fun r => r.2.map (resolveElem r.1))

/-- The state of the caller's `response_parts` list after the call:
Python mutates parts in place, so this is observable by the caller. -/
def processPostState (response_parts : List Part) : List Part :=
  match process_planning_response_aliased response_parts with
  | none => response_parts
  | some r => r.1

/-- A function-call part that the scan loop keeps (truthy `name`). -/
def keptFunctionCall (p : Part) : Bool :=
  match p.function_call with
  | some fc => optStrTruthy fc.name
  | none => false


/-- The `high_level_preamble` block of
`_build_reflection_planner_instruction` (an f-string; tag interpolations
become appends). -/
def high_level_preamble : List Char :=
  "\nWhen answering the question, try to leverage the available tools to gather the information instead of your memorized knowledge.\n\nFollow this enhanced process when answering the question:\n\n(1) **Initial Planning Phase**: First come up with a comprehensive plan in natural language text format\n(2) **Execution Phase**: Use tools to execute the plan with reasoning between tool code snippets to summarize current state and determine next steps. Tool code snippets and reasoning should be interleaved with each other\n(3) **Reflection Phase**: After each major step or when encountering obstacles, reflect on the progress, effectiveness of the approach, and quality of results obtained\n(4) **Replanning Phase**: Based on reflections, adjust the plan if necessary, considering new information, alternative approaches, or course corrections\n(5) **Iterative Execution**: Continue with refined execution based on updated plans\n(6) **Final Answer**: Return one comprehensive final answer incorporating all insights gained\n\nFollow this structured format when answering the question:\n\n- **(1) ".toList ++
  PLANNING_TAG ++
  "**: The initial planning part should be under this tag\n- **(2) ".toList ++
  ACTION_TAG ++
  "**: Tool code snippets should be under this tag\n- **(3) ".toList ++
  REASONING_TAG ++
  "**: Reasoning parts should be under this tag\n- **(4) ".toList ++
  REFLECTION_TAG ++
  "**: Critical analysis of progress, results quality, approach effectiveness, and identification of potential issues or improvements\n- **(5) ".toList ++
  REPLANNING_TAG ++
  "**: Updated plans, alternative strategies, or course corrections based on reflections and new information discovered\n- **(6) ".toList ++
  FINAL_ANSWER_TAG ++
  "**: The comprehensive final answer incorporating all findings and insights\n\n**Process Flow Guidelines:**\n- Interleave ACTION_TAG and REASONING_TAG as you execute steps\n- Use REFLECTION_TAG after completing significant milestones or when encountering challenges\n- Follow REFLECTION_TAG with REPLANNING_TAG when adjustments to the approach are needed\n- Continue the ACTION \u2192 REASONING \u2192 REFLECTION \u2192 REPLANNING cycle as necessary\n- Multiple reflection-replanning cycles are encouraged for complex problems\n- End with FINAL_ANSWER_TAG containing the complete, well-reasoned response\n".toList

/-- The `planning_preamble` block (note the two trailing spaces before the
final newline, as in the source). -/
def planning_preamble : List Char :=
  "\n".toList ++ PLANNING_TAG ++
  " Requirements:\nCreate a numbered plan that breaks down the user query into actionable steps. Each step should specify which tools to use.  \n".toList

/-- The `reasoning_preamble` block (a plain string, no interpolation). -/
def reasoning_preamble : List Char :=
  "\nBelow are the requirements for the reasoning:\nThe reasoning makes a summary of the current trajectory based on the user query and tool outputs.\nBased on the tool outputs and plan, the reasoning also comes up with instructions to the next steps, making the trajectory closer to the final answer.\n".toList

/-- The `reflection_preamble` block. -/
def reflection_preamble : List Char :=
  "\n".toList ++ REFLECTION_TAG ++
  " Requirements - ABSOLUTELY MANDATORY:\nAfter completing your actions, you MUST include this section to:\n1. Evaluate if your actions achieved the intended goals\n2. Identify any gaps or issues in your approach\n3. Assess if you have enough information to answer the user\x27s query\n4. Determine if replanning is necessary\n\nThis section is REQUIRED - do not proceed to final answer without reflection.\n".toList

/-- The `replanning_preamble` block (one trailing space before the final
newline, as in the source). -/
def replanning_preamble : List Char :=
  "\n".toList ++ REPLANNING_TAG ++
  " Requirements (conditional):\nOnly if reflection reveals issues, create a revised plan and execute it with new ".toList ++
  ACTION_TAG ++ " and ".toList ++ REASONING_TAG ++ " sections. \n".toList

/-- The `final_answer_preamble` block. -/
def final_answer_preamble : List Char :=
  "\n".toList ++ FINAL_ANSWER_TAG ++
  " Requirements:\nProvide your final answer only after completing reflection. Base your answer on execution results and reflection insights.\n".toList

/-- The `tool_code_without_python_libraries_preamble` block. -/
def tool_code_without_python_libraries_preamble : List Char :=
  "\nBelow are the requirements for the tool code:\n\n**Custom Tools:** The available tools are described in the context and can be directly used.\n- Code must be valid self-contained Python snippets with no imports and no references to tools or Python libraries that are not in the context.\n- You cannot use any parameters or fields that are not explicitly defined in the APIs in the context.\n- The code snippets should be readable, efficient, and directly relevant to the user query and reasoning steps.\n- When using the tools, you should use the library name together with the function name, e.g., vertex_search.search().\n- If Python libraries are not provided in the context, NEVER write your own code other than the function calls using the provided tools.\n".toList

/-- Python `separator.join(blocks)`. -/
def joinWithSep (separator : List Char) : List (List Char) → List Char
  | [] => []
  | [x] => x
  | x :: xs => x ++ separator ++ joinWithSep separator xs

/-- `_build_reflection_planner_instruction`: the seven prose blocks joined
by blank lines. -/
def _build_reflection_planner_instruction : List Char :=
  joinWithSep "\n\n".toList [
    high_level_preamble,
    planning_preamble,
    reasoning_preamble,
    reflection_preamble,
    replanning_preamble,
    final_answer_preamble,
    tool_code_without_python_libraries_preamble]

set_option linter.unusedVariables false in
/-- `build_planning_instruction`: ignores the readonly context and the
llm request (of arbitrary types) and returns the fixed instruction. -/
def build_planning_instruction {C R : Type} (readonly_context : C)
    (llm_request : R) : List Char :=
  _build_reflection_planner_instruction

/-- The two-fragment input used as the C10 witness: a final-answer
fragment followed by a planning fragment. -/
def c10parts : List Part :=
  [{ text := some "/*FINAL_ANSWER*/x".toList },
   { text := some "/*PLANNING*/y".toList }]

/-- Post-call state of the C10 witness input: the final-answer fragment
untouched, the planning fragment marked in place. -/
def c10state : List Part :=
  [{ text := some "/*FINAL_ANSWER*/x".toList },
   { function_call := none, text := some "/*PLANNING*/y".toList, thought := some true }]

/-- Output elements of the C10 witness input: two newly built fragments
from the split and an alias of index 1. -/
def c10out : List OutElem :=
  [OutElem.new
     { function_call := none, text := some "/*FINAL_ANSWER*/".toList,
       thought := some true },
   OutElem.new { function_call := none, text := some "x".toList, thought := none },
   OutElem.ref 1]

end PlanReflection

namespace PlanReflection

/-! ### Generic list helpers -/

theorem getD_drop_add {α : Type} (l : List α) (off k : Nat) (d : α) :
    (l.drop off).getD k d = l.getD (off + k) d := by
  induction l generalizing off with
  | nil => simp [List.drop]
  | cons a t ih =>
      cases off with
      | zero => simp
      | succ o =>
          have h : o + 1 + k = (o + k) + 1 := by omega
          rw [h]
          exact ih o

theorem drop_cons_shift {α : Type} (l : List α) (off : Nat) (q : α) (rest : List α)
    (h : l.drop off = q :: rest) : l.drop (off + 1) = rest := by
  have h1 : l.drop (off + 1) = (l.drop off).drop 1 := (List.drop_drop 1 off l).symm
  rw [h1, h]
  rfl

theorem range_map_getD {α : Type} (l : List α) (d : α) :
    (List.range l.length).map (fun k => l.getD k d) = l := by
  induction l with
  | nil => rfl
  | cons a t ih =>
      have h1 : List.range (a :: t).length = 0 :: (List.range t.length).map Nat.succ := by
        simpa using List.range_succ_eq_map t.length
      rw [h1, List.map_cons, List.map_map]
      have h2 : ((fun k => (a :: t).getD k d) ∘ Nat.succ) = fun k => t.getD k d := by
        funext k
        simp
      rw [h2, ih]
      simp

theorem getD_append_left_lt {α : Type} (l1 l2 : List α) (n : Nat) (d : α)
    (h : n < l1.length) : (l1 ++ l2).getD n d = l1.getD n d := by
  induction l1 generalizing n with
  | nil => simp at h
  | cons a t ih =>
      cases n with
      | zero => rfl
      | succ m =>
          have hm : m < t.length := by simpa using h
          simpa using ih m hm

theorem getD_append_add {α : Type} (l1 l2 : List α) (n : Nat) (d : α) :
    (l1 ++ l2).getD (l1.length + n) d = l2.getD n d := by
  induction l1 with
  | nil => simp
  | cons a t ih =>
      have h : (a :: t).length + n = (t.length + n) + 1 := by
        simp only [List.length_cons]
        omega
      rw [h]
      simpa using ih

theorem drop_append_len {α : Type} (l1 l2 : List α) :
    (l1 ++ l2).drop l1.length = l2 := List.drop_left l1 l2

/-! ### Last-occurrence search -/

theorem rfindAux_some_spec (t s : List Char) :
    ∀ n i, rfindAux t s n = some i →
      s.isPrefixOf (t.drop i) = true ∧ i ≤ n := by
  intro n
  induction n with
  | zero =>
      intro i h
      simp only [rfindAux] at h
      split at h
      · rename_i hp
        cases h
        exact ⟨hp, Nat.le_refl 0⟩
      · exact Option.noConfusion h
  | succ m ih =>
      intro i h
      simp only [rfindAux] at h
      split at h
      · rename_i hp
        cases h
        exact ⟨hp, Nat.le_refl _⟩
      · rcases ih i h with ⟨h1, h2⟩
        exact ⟨h1, Nat.le_succ_of_le h2⟩

theorem rfindAux_some_max (t s : List Char) :
    ∀ n i, rfindAux t s n = some i →
      ∀ j, j ≤ n → s.isPrefixOf (t.drop j) = true → j ≤ i := by
  intro n
  induction n with
  | zero =>
      intro i h j hj _
      omega
  | succ m ih =>
      intro i h j hj hpj
      simp only [rfindAux] at h
      split at h
      · cases h
        exact hj
      · rename_i hp
        rcases Nat.lt_or_ge j (m + 1) with hlt | hge
        · exact ih i h j (Nat.lt_succ_iff.mp hlt) hpj
        · exfalso
          have hjm : j = m + 1 := by omega
          rw [hjm] at hpj
          exact hp hpj

theorem rfindAux_none_spec (t s : List Char) :
    ∀ n, rfindAux t s n = none →
      ∀ j, j ≤ n → ¬s.isPrefixOf (t.drop j) = true := by
  intro n
  induction n with
  | zero =>
      intro h j hj
      have hj0 : j = 0 := by omega
      rw [hj0]
      simp only [rfindAux] at h
      split at h
      · exact Option.noConfusion h
      · assumption
  | succ m ih =>
      intro h j hj
      simp only [rfindAux] at h
      split at h
      · exact Option.noConfusion h
      · rename_i hp
        rcases Nat.lt_or_ge j (m + 1) with hlt | hge
        · exact ih h j (Nat.lt_succ_iff.mp hlt)
        · have hjm : j = m + 1 := by omega
          rw [hjm]
          exact hp

theorem rfind_exists_of_occurrence (t s : List Char) (j : Nat)
    (hj : j ≤ t.length) (hp : s.isPrefixOf (t.drop j) = true) :
    ∃ i, rfind t s = some i := by
  cases hr : rfind t s with
  | some i => exact ⟨i, rfl⟩
  | none => exact absurd hp (rfindAux_none_spec t s t.length hr j hj)

theorem containsSub_eq_true_iff_occurrence (t s : List Char) :
    containsSub t s = true ↔ ∃ j, j ≤ t.length ∧ s.isPrefixOf (t.drop j) = true := by
  constructor
  · intro h
    rcases List.any_eq_true.mp h with ⟨j, hj, hp⟩
    exact ⟨j, Nat.lt_succ_iff.mp (List.mem_range.mp hj), hp⟩
  · intro hex
    rcases hex with ⟨j, hj, hp⟩
    exact List.any_eq_true.mpr ⟨j, List.mem_range.mpr (Nat.lt_succ_iff.mpr hj), hp⟩

theorem occurrence_bound (t s : List Char) (j : Nat) (hs : s ≠ [])
    (hp : s.isPrefixOf (t.drop j) = true) : j + s.length ≤ t.length := by
  have hpre : s <+: t.drop j := List.isPrefixOf_iff_prefix.mp hp
  have hlen : s.length ≤ (t.drop j).length := hpre.length_le
  rw [List.length_drop] at hlen
  by_cases hj : j ≤ t.length
  · have hsl : 0 < s.length := List.length_pos.mpr hs
    omega
  · exfalso
    have hdn : t.drop j = [] := List.drop_eq_nil_of_le (by omega)
    rw [hdn] at hpre
    exact hs (List.prefix_nil.mp hpre)

theorem occurrence_in_take (t s : List Char) (j m : Nat)
    (hp : s.isPrefixOf (t.drop j) = true) (hm : j + s.length ≤ m) :
    s.isPrefixOf ((t.take m).drop j) = true := by
  have hpre : s <+: t.drop j := List.isPrefixOf_iff_prefix.mp hp
  rcases hpre with ⟨b, hb⟩
  apply List.isPrefixOf_iff_prefix.mpr
  rw [List.drop_take, ← hb, List.take_append_eq_append_take]
  have htake : s.take (m - j) = s := List.take_of_length_le (by omega)
  rw [htake]
  exact ⟨_, rfl⟩
theorem final_answer_tag_ne_nil : FINAL_ANSWER_TAG ≠ [] := by decide

theorem final_answer_tag_len_pos : 0 < FINAL_ANSWER_TAG.length := by decide

/-- C1: for every text fragment whose text contains the '/\x2aFINAL_ANSWER\x2a/'
tag, `_handle_non_function_call_parts` splits the text at the last
occurrence of the tag: it emits a newly built head fragment (everything up
to and including the tag) marked as thought and, exactly when the part
after the tag is non-empty, a tail fragment (everything after the tag)
with the thought flag unset; the split position dominates every occurrence
of the tag, so the head contains every earlier occurrence, and when the
tag ends the text no tail is emitted. -/
theorem C1_split_at_last_final_answer (off : Nat) (p : Part) (t : List Char)
    (htext : p.text = some t)
    (hcontains : containsSub t FINAL_ANSWER_TAG = true) :
    ∃ i, rfind t FINAL_ANSWER_TAG = some i ∧
      FINAL_ANSWER_TAG.isPrefixOf (t.drop i) = true ∧
      (∀ j, FINAL_ANSWER_TAG.isPrefixOf (t.drop j) = true → j ≤ i) ∧
      t.take (i + FINAL_ANSWER_TAG.length) ≠ [] ∧
      (∀ j, FINAL_ANSWER_TAG.isPrefixOf (t.drop j) = true →
        FINAL_ANSWER_TAG.isPrefixOf
          ((t.take (i + FINAL_ANSWER_TAG.length)).drop j) = true) ∧
      (_handle_non_function_call_parts off p).2 =
        OutElem.new { function_call := none,
                      text := some (t.take (i + FINAL_ANSWER_TAG.length)),
                      thought := some true } ::
          (if (t.drop (i + FINAL_ANSWER_TAG.length)).isEmpty then []
           else [OutElem.new { function_call := none,
                               text := some (t.drop (i + FINAL_ANSWER_TAG.length)),
                               thought := none }]) := by
  obtain ⟨j, hj, hpj⟩ := (containsSub_eq_true_iff_occurrence t FINAL_ANSWER_TAG).mp hcontains
  obtain ⟨i, hi⟩ := rfind_exists_of_occurrence t FINAL_ANSWER_TAG j hj hpj
  obtain ⟨hpi, hile⟩ := rfindAux_some_spec t FINAL_ANSWER_TAG t.length i hi
  have hbound : i + FINAL_ANSWER_TAG.length ≤ t.length :=
    occurrence_bound t FINAL_ANSWER_TAG i final_answer_tag_ne_nil hpi
  have hmax : ∀ j2, FINAL_ANSWER_TAG.isPrefixOf (t.drop j2) = true → j2 ≤ i := by
    intro j2 hp2
    have hb2 : j2 + FINAL_ANSWER_TAG.length ≤ t.length :=
      occurrence_bound t FINAL_ANSWER_TAG j2 final_answer_tag_ne_nil hp2
    have hlp := final_answer_tag_len_pos
    exact rfindAux_some_max t FINAL_ANSWER_TAG t.length i hi j2 (by omega) hp2
  have htne : t ≠ [] := by
    intro hnil
    have hlp := final_answer_tag_len_pos
    rw [hnil] at hbound
    simp only [List.length_nil] at hbound
    omega
  have hheadlen : (t.take (i + FINAL_ANSWER_TAG.length)).length =
      i + FINAL_ANSWER_TAG.length := by
    rw [List.length_take]
    omega
  have hheadne : t.take (i + FINAL_ANSWER_TAG.length) ≠ [] := by
    intro hnil
    have hlp := final_answer_tag_len_pos
    rw [hnil] at hheadlen
    simp only [List.length_nil] at hheadlen
    omega
  have hheadocc : ∀ j2, FINAL_ANSWER_TAG.isPrefixOf (t.drop j2) = true →
      FINAL_ANSWER_TAG.isPrefixOf
        ((t.take (i + FINAL_ANSWER_TAG.length)).drop j2) = true := by
    intro j2 hp2
    exact occurrence_in_take t FINAL_ANSWER_TAG j2 (i + FINAL_ANSWER_TAG.length) hp2
      (by have := hmax j2 hp2; omega)
  have htruthy : optStrTruthy (some t) = true := by
    cases t with
    | nil => exact absurd rfl htne
    | cons c ts => rfl
  have hheadempty : (t.take (i + FINAL_ANSWER_TAG.length)).isEmpty = false := by
    cases hh : t.take (i + FINAL_ANSWER_TAG.length) with
    | nil => exact absurd hh hheadne
    | cons c ts => rfl
  have hsplit : _split_by_last_pattern t FINAL_ANSWER_TAG =
      (t.take (i + FINAL_ANSWER_TAG.length), t.drop (i + FINAL_ANSWER_TAG.length)) := by
    simp only [_split_by_last_pattern, rfind] at hi ⊢
    rw [hi]
  have hmarktr : optStrTruthy (some (t.take (i + FINAL_ANSWER_TAG.length))) = true := by
    simp only [optStrTruthy, hheadempty]
    rfl
  refine ⟨i, hi, hpi, hmax, hheadne, hheadocc, ?_⟩
  simp only [_handle_non_function_call_parts, htext, Option.getD_some, htruthy,
    hcontains, Bool.and_self, if_true, hsplit, hheadempty, Bool.false_eq_true,
    if_false, _mark_as_thought, hmarktr, List.singleton_append]

/-- Witness for C1: a concrete text with two occurrences of the tag and a
non-empty tail; the hypotheses of `C1_split_at_last_final_answer` hold and
its conclusion follows by applying it. -/
theorem C1_witness :
    ({ text := some "a/*FINAL_ANSWER*/b/*FINAL_ANSWER*/c".toList } : Part).text =
      some "a/*FINAL_ANSWER*/b/*FINAL_ANSWER*/c".toList ∧
    containsSub "a/*FINAL_ANSWER*/b/*FINAL_ANSWER*/c".toList FINAL_ANSWER_TAG = true ∧
    (∃ i, rfind "a/*FINAL_ANSWER*/b/*FINAL_ANSWER*/c".toList FINAL_ANSWER_TAG = some i ∧
      FINAL_ANSWER_TAG.isPrefixOf
        ("a/*FINAL_ANSWER*/b/*FINAL_ANSWER*/c".toList.drop i) = true ∧
      (∀ j, FINAL_ANSWER_TAG.isPrefixOf
          ("a/*FINAL_ANSWER*/b/*FINAL_ANSWER*/c".toList.drop j) = true → j ≤ i) ∧
      "a/*FINAL_ANSWER*/b/*FINAL_ANSWER*/c".toList.take
        (i + FINAL_ANSWER_TAG.length) ≠ [] ∧
      (∀ j, FINAL_ANSWER_TAG.isPrefixOf
          ("a/*FINAL_ANSWER*/b/*FINAL_ANSWER*/c".toList.drop j) = true →
        FINAL_ANSWER_TAG.isPrefixOf
          (("a/*FINAL_ANSWER*/b/*FINAL_ANSWER*/c".toList.take
            (i + FINAL_ANSWER_TAG.length)).drop j) = true) ∧
      (_handle_non_function_call_parts 0
        { text := some "a/*FINAL_ANSWER*/b/*FINAL_ANSWER*/c".toList }).2 =
        OutElem.new { function_call := none,
                      text := some ("a/*FINAL_ANSWER*/b/*FINAL_ANSWER*/c".toList.take
                        (i + FINAL_ANSWER_TAG.length)),
                      thought := some true } ::
          (if ("a/*FINAL_ANSWER*/b/*FINAL_ANSWER*/c".toList.drop
              (i + FINAL_ANSWER_TAG.length)).isEmpty then []
           else [OutElem.new { function_call := none,
                               text := some ("a/*FINAL_ANSWER*/b/*FINAL_ANSWER*/c".toList.drop
                                 (i + FINAL_ANSWER_TAG.length)),
                               thought := none }])) :=
  ⟨rfl, by decide,
    C1_split_at_last_final_answer 0
      { text := some "a/*FINAL_ANSWER*/b/*FINAL_ANSWER*/c".toList }
      "a/*FINAL_ANSWER*/b/*FINAL_ANSWER*/c".toList rfl (by decide)⟩

/-- C6: the final-answer rule takes precedence over the prefix-tag rule.
When the text contains the final-answer tag, only the split rule runs: the
caller's part is left unchanged (no whole-fragment thought marking, even
when the text also starts with a narrative tag) and every emitted element
is newly constructed.  The whole-fragment prefix-tag rule runs exactly
when the tag is absent from the text. -/
theorem C6_final_answer_precedence (off : Nat) (p : Part) (t : List Char)
    (htext : p.text = some t) (htne : t ≠ []) :
    (containsSub t FINAL_ANSWER_TAG = true →
      (_handle_non_function_call_parts off p).1 = p ∧
      ∀ e ∈ (_handle_non_function_call_parts off p).2, ∃ q, e = OutElem.new q) ∧
    (containsSub t FINAL_ANSWER_TAG = false →
      _handle_non_function_call_parts off p =
        (if startsWithAnyNarrativeTag t then _mark_as_thought p else p,
         [OutElem.ref off])) := by
  have htruthy : optStrTruthy (some t) = true := by
    cases t with
    | nil => exact absurd rfl htne
    | cons c ts => rfl
  have htempty : t.isEmpty = false := by
    cases t with
    | nil => exact absurd rfl htne
    | cons c ts => rfl
  constructor
  · intro hc
    constructor
    · simp only [_handle_non_function_call_parts, htext, Option.getD_some, htruthy, hc,
        Bool.and_self, if_true]
    · intro e he
      simp only [_handle_non_function_call_parts, htext, Option.getD_some, htruthy, hc,
        Bool.and_self, if_true, List.mem_append] at he
      rcases he with he | he
      · split at he
        · exact absurd he (List.not_mem_nil e)
        · rw [List.mem_singleton] at he
          exact ⟨_, he⟩
      · split at he
        · exact absurd he (List.not_mem_nil e)
        · rw [List.mem_singleton] at he
          exact ⟨_, he⟩
  · intro hc
    simp only [_handle_non_function_call_parts, htext, Option.getD_some, htruthy, hc,
      Bool.and_false, Bool.false_eq_true, if_false, htempty, Bool.not_false, Bool.true_and]

/-- Witness for C6: a concrete text that both starts with a narrative tag
and contains the final-answer tag; the conclusion follows by applying
`C6_final_answer_precedence`. -/
theorem C6_witness :
    ({ text := some "/*PLANNING*/x/*FINAL_ANSWER*/".toList } : Part).text =
      some "/*PLANNING*/x/*FINAL_ANSWER*/".toList ∧
    "/*PLANNING*/x/*FINAL_ANSWER*/".toList ≠ [] ∧
    ((containsSub "/*PLANNING*/x/*FINAL_ANSWER*/".toList FINAL_ANSWER_TAG = true →
      (_handle_non_function_call_parts 0
        { text := some "/*PLANNING*/x/*FINAL_ANSWER*/".toList }).1 =
        { text := some "/*PLANNING*/x/*FINAL_ANSWER*/".toList } ∧
      ∀ e ∈ (_handle_non_function_call_parts 0
        { text := some "/*PLANNING*/x/*FINAL_ANSWER*/".toList }).2,
        ∃ q, e = OutElem.new q) ∧
    (containsSub "/*PLANNING*/x/*FINAL_ANSWER*/".toList FINAL_ANSWER_TAG = false →
      _handle_non_function_call_parts 0
        { text := some "/*PLANNING*/x/*FINAL_ANSWER*/".toList } =
        (if startsWithAnyNarrativeTag "/*PLANNING*/x/*FINAL_ANSWER*/".toList then
          _mark_as_thought { text := some "/*PLANNING*/x/*FINAL_ANSWER*/".toList }
         else { text := some "/*PLANNING*/x/*FINAL_ANSWER*/".toList },
         [OutElem.ref 0]))) :=
  ⟨rfl, by decide,
    C6_final_answer_precedence 0
      { text := some "/*PLANNING*/x/*FINAL_ANSWER*/".toList }
      "/*PLANNING*/x/*FINAL_ANSWER*/".toList rfl (by decide)⟩

/-! ### Structure lemmas for the scan loop -/

theorem scanPhase_cons_kept (off : Nat) (p : Part) (rest : List Part) (fc : FunctionCall)
    (hfc : p.function_call = some fc) (hname : optStrTruthy fc.name = true) :
    scanPhase off (p :: rest) = (p :: rest, [OutElem.ref off], some off) := by
  simp only [scanPhase, hfc, hname, if_true]

theorem scanPhase_cons_skip (off : Nat) (p : Part) (rest : List Part) (fc : FunctionCall)
    (hfc : p.function_call = some fc) (hname : optStrTruthy fc.name = false) :
    scanPhase off (p :: rest) =
      (p :: (scanPhase (off + 1) rest).1, (scanPhase (off + 1) rest).2.1,
        (scanPhase (off + 1) rest).2.2) := by
  simp only [scanPhase, hfc, hname, Bool.false_eq_true, if_false]

theorem scanPhase_cons_text (off : Nat) (p : Part) (rest : List Part)
    (hfc : p.function_call = none) :
    scanPhase off (p :: rest) =
      ((_handle_non_function_call_parts off p).1 :: (scanPhase (off + 1) rest).1,
       (_handle_non_function_call_parts off p).2 ++ (scanPhase (off + 1) rest).2.1,
       (scanPhase (off + 1) rest).2.2) := by
  simp only [scanPhase, hfc]

theorem keptFunctionCall_false_elim (p : Part) (h : keptFunctionCall p = false) :
    p.function_call = none ∨
      ∃ fc, p.function_call = some fc ∧ optStrTruthy fc.name = false := by
  cases hfc : p.function_call with
  | none => exact Or.inl rfl
  | some fc =>
      refine Or.inr ⟨fc, rfl, ?_⟩
      simpa [keptFunctionCall, hfc] using h

theorem keptFunctionCall_true_elim (p : Part) (h : keptFunctionCall p = true) :
    ∃ fc, p.function_call = some fc ∧ optStrTruthy fc.name = true := by
  cases hfc : p.function_call with
  | none => simp [keptFunctionCall, hfc] at h
  | some fc =>
      refine ⟨fc, rfl, ?_⟩
      simpa [keptFunctionCall, hfc] using h

theorem scanPhase_length (l : List Part) : ∀ off, (scanPhase off l).1.length = l.length := by
  induction l with
  | nil => intro off; rfl
  | cons p rest ih =>
      intro off
      cases hfc : p.function_call with
      | none => simp [scanPhase_cons_text off p rest hfc, ih]
      | some fc =>
          cases hname : optStrTruthy fc.name with
          | false => simp [scanPhase_cons_skip off p rest fc hfc hname, ih]
          | true => simp [scanPhase_cons_kept off p rest fc hfc hname]

theorem scanPhase_append_no_kept (l1 l2 : List Part) : ∀ off,
    (∀ q ∈ l1, keptFunctionCall q = false) →
    scanPhase off (l1 ++ l2) =
      ((scanPhase off l1).1 ++ (scanPhase (off + l1.length) l2).1,
       (scanPhase off l1).2.1 ++ (scanPhase (off + l1.length) l2).2.1,
       (scanPhase (off + l1.length) l2).2.2) := by
  induction l1 with
  | nil =>
      intro off h
      simp [scanPhase]
  | cons p rest ih =>
      intro off h
      have hp : keptFunctionCall p = false := h p (List.mem_cons_self p rest)
      have hrest : ∀ q ∈ rest, keptFunctionCall q = false :=
        fun q hq => h q (List.mem_cons_of_mem p hq)
      have harith : off + (p :: rest).length = off + 1 + rest.length := by
        simp only [List.length_cons]
        omega
      rcases keptFunctionCall_false_elim p hp with hfc | hfc
      · rw [List.cons_append, scanPhase_cons_text off p (rest ++ l2) hfc,
            ih (off + 1) hrest, scanPhase_cons_text off p rest hfc, harith]
        simp [List.append_assoc]
      · rcases hfc with ⟨fc, hfc, hname⟩
        rw [List.cons_append, scanPhase_cons_skip off p (rest ++ l2) fc hfc hname,
            ih (off + 1) hrest, scanPhase_cons_skip off p rest fc hfc hname, harith]
        simp [List.append_assoc]

theorem mark_function_call (p : Part) :
    (_mark_as_thought p).function_call = p.function_call := by
  simp only [_mark_as_thought]
  split
  · rfl
  · rfl

theorem mark_text (p : Part) : (_mark_as_thought p).text = p.text := by
  simp only [_mark_as_thought]
  split
  · rfl
  · rfl

theorem handle_fst_cases (off : Nat) (p : Part) :
    (_handle_non_function_call_parts off p).1 = p ∨
    (_handle_non_function_call_parts off p).1 = { p with thought := some true } := by
  by_cases hc : (optStrTruthy p.text &&
      containsSub (p.text.getD []) FINAL_ANSWER_TAG) = true
  · left
    simp only [_handle_non_function_call_parts, hc, if_true]
  · have hc2 : (optStrTruthy p.text &&
        containsSub (p.text.getD []) FINAL_ANSWER_TAG) = false := by
      cases hb : (optStrTruthy p.text &&
          containsSub (p.text.getD []) FINAL_ANSWER_TAG) with
      | false => rfl
      | true => exact absurd hb hc
    simp only [_handle_non_function_call_parts, hc2, Bool.false_eq_true, if_false]
    split
    · simp only [_mark_as_thought]
      split
      · exact Or.inr rfl
      · exact Or.inl rfl
    · exact Or.inl rfl

theorem handle_snd_ref (off : Nat) (p : Part) (j : Nat)
    (h : OutElem.ref j ∈ (_handle_non_function_call_parts off p).2) :
    j = off ∧ (optStrTruthy p.text &&
      containsSub (p.text.getD []) FINAL_ANSWER_TAG) = false := by
  by_cases hc : (optStrTruthy p.text &&
      containsSub (p.text.getD []) FINAL_ANSWER_TAG) = true
  · exfalso
    simp only [_handle_non_function_call_parts, hc, if_true, List.mem_append] at h
    rcases h with h | h
    · split at h
      · exact absurd h (List.not_mem_nil _)
      · rw [List.mem_singleton] at h
        exact OutElem.noConfusion h
    · split at h
      · exact absurd h (List.not_mem_nil _)
      · rw [List.mem_singleton] at h
        exact OutElem.noConfusion h
  · have hc2 : (optStrTruthy p.text &&
        containsSub (p.text.getD []) FINAL_ANSWER_TAG) = false := by
      cases hb : (optStrTruthy p.text &&
          containsSub (p.text.getD []) FINAL_ANSWER_TAG) with
      | false => rfl
      | true => exact absurd hb hc
    refine ⟨?_, hc2⟩
    simp only [_handle_non_function_call_parts, hc2, Bool.false_eq_true, if_false,
      List.mem_singleton] at h
    injection h

theorem handle_snd_new (off : Nat) (p : Part) (q : Part)
    (h : OutElem.new q ∈ (_handle_non_function_call_parts off p).2) :
    q.function_call = none := by
  by_cases hc : (optStrTruthy p.text &&
      containsSub (p.text.getD []) FINAL_ANSWER_TAG) = true
  · simp only [_handle_non_function_call_parts, hc, if_true, List.mem_append] at h
    rcases h with h | h
    · split at h
      · exact absurd h (List.not_mem_nil _)
      · rw [List.mem_singleton] at h
        injection h with h2
        rw [h2, mark_function_call]
    · split at h
      · exact absurd h (List.not_mem_nil _)
      · rw [List.mem_singleton] at h
        injection h with h2
        rw [h2]
  · have hc2 : (optStrTruthy p.text &&
        containsSub (p.text.getD []) FINAL_ANSWER_TAG) = false := by
      cases hb : (optStrTruthy p.text &&
          containsSub (p.text.getD []) FINAL_ANSWER_TAG) with
      | false => rfl
      | true => exact absurd hb hc
    simp only [_handle_non_function_call_parts, hc2, Bool.false_eq_true, if_false,
      List.mem_singleton] at h
    exact OutElem.noConfusion h

theorem scanPhase_state_pointwise (l : List Part) : ∀ off k,
    (scanPhase off l).1.getD k default = l.getD k default ∨
    (scanPhase off l).1.getD k default =
      { l.getD k default with thought := some true } := by
  induction l with
  | nil => intro off k; exact Or.inl rfl
  | cons p rest ih =>
      intro off k
      cases hfc : p.function_call with
      | none =>
          rw [scanPhase_cons_text off p rest hfc]
          cases k with
          | zero =>
              simpa using handle_fst_cases off p
          | succ m =>
              simpa using ih (off + 1) m
      | some fc =>
          cases hname : optStrTruthy fc.name with
          | true =>
              rw [scanPhase_cons_kept off p rest fc hfc hname]
              exact Or.inl rfl
          | false =>
              rw [scanPhase_cons_skip off p rest fc hfc hname]
              cases k with
              | zero => exact Or.inl rfl
              | succ m => simpa using ih (off + 1) m

theorem scanPhase_out_ref (l : List Part) : ∀ off j,
    OutElem.ref j ∈ (scanPhase off l).2.1 →
    ∃ k, k < l.length ∧ j = off + k ∧
      (((l.getD k default).function_call = none ∧
        (optStrTruthy (l.getD k default).text &&
          containsSub ((l.getD k default).text.getD []) FINAL_ANSWER_TAG) = false) ∨
       keptFunctionCall (l.getD k default) = true) := by
  induction l with
  | nil =>
      intro off j h
      exact absurd h (List.not_mem_nil _)
  | cons p rest ih =>
      intro off j h
      cases hfc : p.function_call with
      | none =>
          rw [scanPhase_cons_text off p rest hfc] at h
          rw [List.mem_append] at h
          rcases h with h | h
          · obtain ⟨hj, hcond⟩ := handle_snd_ref off p j h
            exact ⟨0, by simp, by omega, Or.inl ⟨hfc, hcond⟩⟩
          · obtain ⟨k, hk, hjk, hcase⟩ := ih (off + 1) j h
            exact ⟨k + 1, by simpa using hk, by omega, by simpa using hcase⟩
      | some fc =>
          cases hname : optStrTruthy fc.name with
          | true =>
              rw [scanPhase_cons_kept off p rest fc hfc hname] at h
              rw [List.mem_singleton] at h
              injection h with hj
              refine ⟨0, by simp, by omega, Or.inr ?_⟩
              simp [keptFunctionCall, hfc, hname]
          | false =>
              rw [scanPhase_cons_skip off p rest fc hfc hname] at h
              obtain ⟨k, hk, hjk, hcase⟩ := ih (off + 1) j h
              exact ⟨k + 1, by simpa using hk, by omega, by simpa using hcase⟩

theorem scanPhase_out_new (l : List Part) : ∀ off q,
    OutElem.new q ∈ (scanPhase off l).2.1 → q.function_call = none := by
  induction l with
  | nil =>
      intro off q h
      exact absurd h (List.not_mem_nil _)
  | cons p rest ih =>
      intro off q h
      cases hfc : p.function_call with
      | none =>
          rw [scanPhase_cons_text off p rest hfc] at h
          rw [List.mem_append] at h
          rcases h with h | h
          · exact handle_snd_new off p q h
          · exact ih (off + 1) q h
      | some fc =>
          cases hname : optStrTruthy fc.name with
          | true =>
              rw [scanPhase_cons_kept off p rest fc hfc hname] at h
              rw [List.mem_singleton] at h
              exact OutElem.noConfusion h
          | false =>
              rw [scanPhase_cons_skip off p rest fc hfc hname] at h
              exact ih (off + 1) q h

theorem lookaheadPhase_cons_fc (off : Nat) (p : Part) (rest : List Part) (fc : FunctionCall)
    (hfc : p.function_call = some fc) :
    lookaheadPhase off (p :: rest) = OutElem.ref off :: lookaheadPhase (off + 1) rest := by
  simp only [lookaheadPhase, hfc]

theorem lookaheadPhase_cons_none (off : Nat) (p : Part) (rest : List Part)
    (hfc : p.function_call = none) :
    lookaheadPhase off (p :: rest) = [] := by
  simp only [lookaheadPhase, hfc]

theorem lookaheadPhase_ref (l : List Part) : ∀ off e,
    e ∈ lookaheadPhase off l →
    ∃ k, k < l.length ∧ e = OutElem.ref (off + k) ∧
      ((l.getD k default).function_call).isSome = true := by
  induction l with
  | nil =>
      intro off e h
      exact absurd h (List.not_mem_nil _)
  | cons p rest ih =>
      intro off e h
      cases hfc : p.function_call with
      | none =>
          rw [lookaheadPhase_cons_none off p rest hfc] at h
          exact absurd h (List.not_mem_nil _)
      | some fc =>
          rw [lookaheadPhase_cons_fc off p rest fc hfc] at h
          rw [List.mem_cons] at h
          rcases h with h | h
          · refine ⟨0, by simp, by rw [h, Nat.add_zero], ?_⟩
            simp [hfc]
          · obtain ⟨k, hk, he, hsome⟩ := ih (off + 1) e h
            refine ⟨k + 1, by simpa using hk, by rw [he]; congr 1; omega, by simpa using hsome⟩

theorem lookaheadPhase_resolved (l : List Part) : ∀ off st, st.drop off = l →
    (lookaheadPhase off l).map (resolveElem st) =
      l.takeWhile (fun q => q.function_call.isSome) := by
  induction l with
  | nil =>
      intro off st h
      rfl
  | cons p rest ih =>
      intro off st h
      cases hfc : p.function_call with
      | none =>
          rw [lookaheadPhase_cons_none off p rest hfc]
          rw [List.takeWhile_cons]
          simp [hfc]
      | some fc =>
          rw [lookaheadPhase_cons_fc off p rest fc hfc, List.map_cons]
          have h0 : resolveElem st (OutElem.ref off) = p := by
            simp only [resolveElem]
            have e1 : st.getD off default = (st.drop off).getD 0 default := by
              rw [getD_drop_add st off 0 default, Nat.add_zero]
            rw [e1, h]
            rfl
          have h1 : st.drop (off + 1) = rest := drop_cons_shift st off p rest h
          rw [h0, ih (off + 1) st h1]
          rw [List.takeWhile_cons]
          simp [hfc]

theorem scanPhase_no_kept_idx (l : List Part) (off : Nat)
    (h : ∀ q ∈ l, keptFunctionCall q = false) : (scanPhase off l).2.2 = none := by
  have happ := scanPhase_append_no_kept l [] off h
  rw [List.append_nil] at happ
  rw [happ]
  rfl

theorem scanPhase_find (l : List Part) : ∀ off i,
    (scanPhase off l).2.2 = some i →
    ∃ l1 p l2, l = l1 ++ p :: l2 ∧ i = off + l1.length ∧
      keptFunctionCall p = true ∧ (∀ q ∈ l1, keptFunctionCall q = false) ∧
      (scanPhase off l).1 = (scanPhase off l1).1 ++ p :: l2 ∧
      (scanPhase off l).2.1 = (scanPhase off l1).2.1 ++ [OutElem.ref i] := by
  induction l with
  | nil =>
      intro off i h
      exact Option.noConfusion h
  | cons p rest ih =>
      intro off i h
      cases hfc : p.function_call with
      | none =>
          rw [scanPhase_cons_text off p rest hfc] at h
          obtain ⟨l1, kp, l2, hl, hi, hkept, hfirst, hst, hout⟩ := ih (off + 1) i h
          refine ⟨p :: l1, kp, l2, by rw [hl]; rfl, ?_, hkept, ?_, ?_, ?_⟩
          · simp only [List.length_cons]
            omega
          · intro q hq
            rw [List.mem_cons] at hq
            rcases hq with hq | hq
            · rw [hq]
              simp [keptFunctionCall, hfc]
            · exact hfirst q hq
          · rw [scanPhase_cons_text off p rest hfc,
                scanPhase_cons_text off p l1 hfc, hst]
            rfl
          · rw [scanPhase_cons_text off p rest hfc,
                scanPhase_cons_text off p l1 hfc, hout, List.append_assoc]
      | some fc =>
          cases hname : optStrTruthy fc.name with
          | true =>
              rw [scanPhase_cons_kept off p rest fc hfc hname] at h
              have hio : i = off := by
                injection h with h2
                exact h2.symm
              refine ⟨[], p, rest, rfl, by rw [hio]; rfl, ?_, ?_, ?_, ?_⟩
              · simp [keptFunctionCall, hfc, hname]
              · intro q hq
                exact absurd hq (List.not_mem_nil q)
              · rw [scanPhase_cons_kept off p rest fc hfc hname]
                rfl
              · rw [scanPhase_cons_kept off p rest fc hfc hname, hio]
                rfl
          | false =>
              rw [scanPhase_cons_skip off p rest fc hfc hname] at h
              obtain ⟨l1, kp, l2, hl, hi, hkept, hfirst, hst, hout⟩ := ih (off + 1) i h
              refine ⟨p :: l1, kp, l2, by rw [hl]; rfl, ?_, hkept, ?_, ?_, ?_⟩
              · simp only [List.length_cons]
                omega
              · intro q hq
                rw [List.mem_cons] at hq
                rcases hq with hq | hq
                · rw [hq]
                  simp [keptFunctionCall, hfc, hname]
                · exact hfirst q hq
              · rw [scanPhase_cons_skip off p rest fc hfc hname,
                    scanPhase_cons_skip off p l1 fc hfc hname, hst]
                rfl
              · rw [scanPhase_cons_skip off p rest fc hfc hname,
                    scanPhase_cons_skip off p l1 fc hfc hname, hout]

/-! ### Case analysis of the top-level segmenter -/

theorem aliased_none_idx (l : List Part) (hne : l ≠ [])
    (h : (scanPhase 0 l).2.2 = none) :
    process_planning_response_aliased l = some ((scanPhase 0 l).1, (scanPhase 0 l).2.1) := by
  have hni : l.isEmpty = false := by
    cases l with
    | nil => exact absurd rfl hne
    | cons a t => rfl
  simp only [process_planning_response_aliased, hni, Bool.false_eq_true, if_false, h]

theorem aliased_idx_zero (l : List Part) (hne : l ≠ [])
    (h : (scanPhase 0 l).2.2 = some 0) :
    process_planning_response_aliased l = some ((scanPhase 0 l).1, (scanPhase 0 l).2.1) := by
  have hni : l.isEmpty = false := by
    cases l with
    | nil => exact absurd rfl hne
    | cons a t => rfl
  simp only [process_planning_response_aliased, hni, Bool.false_eq_true, if_false, h,
    Nat.lt_irrefl, if_false]

theorem aliased_idx_pos (l : List Part) (hne : l ≠ []) (i : Nat) (hi : 0 < i)
    (h : (scanPhase 0 l).2.2 = some i) :
    process_planning_response_aliased l =
      some ((scanPhase 0 l).1,
        (scanPhase 0 l).2.1 ++ lookaheadPhase (i + 1) ((scanPhase 0 l).1.drop (i + 1))) := by
  have hni : l.isEmpty = false := by
    cases l with
    | nil => exact absurd rfl hne
    | cons a t => rfl
  simp only [process_planning_response_aliased, hni, Bool.false_eq_true, if_false, h, hi,
    if_true]

/-- C4: `process_planning_response` returns `None` exactly for empty
input; every non-empty input (including one consisting solely of
skippable falsy-named function-call parts) yields a list, possibly
empty, never `None`. -/
theorem C4_none_iff_empty (response_parts : List Part) :
    process_planning_response response_parts = none ↔ response_parts = [] := by
  constructor
  · intro h
    by_contra hne
    cases hidx : (scanPhase 0 response_parts).2.2 with
    | none =>
        rw [process_planning_response,
          aliased_none_idx response_parts hne hidx] at h
        exact Option.noConfusion h
    | some i =>
        rcases Nat.eq_zero_or_pos i with h0 | hpos
        · rw [h0] at hidx
          rw [process_planning_response,
            aliased_idx_zero response_parts hne hidx] at h
          exact Option.noConfusion h
        · rw [process_planning_response,
            aliased_idx_pos response_parts hne i hpos hidx] at h
          exact Option.noConfusion h
  · intro h
    rw [h]
    rfl

/-! ### Pure-text inputs -/

theorem getD_map_lt {α β : Type} (f : α → β) (l : List α) :
    ∀ k, k < l.length → ∀ (d : β) (e : α),
      (l.map f).getD k d = f (l.getD k e) := by
  induction l with
  | nil =>
      intro k hk d e
      simp at hk
  | cons a t ih =>
      intro k hk d e
      cases k with
      | zero => rfl
      | succ m =>
          have hm : m < t.length := by simpa using hk
          simpa using ih m hm d e

theorem getD_mem_lt {α : Type} (l : List α) :
    ∀ k, k < l.length → ∀ (d : α), l.getD k d ∈ l := by
  induction l with
  | nil =>
      intro k hk d
      simp at hk
  | cons a t ih =>
      intro k hk d
      cases k with
      | zero => exact List.mem_cons_self a t
      | succ m =>
          have hm : m < t.length := by simpa using hk
          exact List.mem_cons_of_mem a (by simpa using ih m hm d)

theorem optStrTruthy_eq_not_isEmpty (o : Option (List Char)) :
    optStrTruthy o = !(o.getD []).isEmpty := by
  cases o with
  | none => rfl
  | some s => rfl

theorem range_map_ref_shift (n off : Nat) :
    (List.range (n + 1)).map (fun k => OutElem.ref (off + k)) =
      OutElem.ref off :: (List.range n).map (fun k => OutElem.ref ((off + 1) + k)) := by
  rw [List.range_succ_eq_map, List.map_cons, List.map_map]
  have hfun : ((fun k => OutElem.ref (off + k)) ∘ Nat.succ) =
      fun k => OutElem.ref ((off + 1) + k) := by
    funext k
    simp only [Function.comp]
    congr 1
    omega
  rw [hfun, Nat.add_zero]

theorem scanPhase_text_only (l : List Part) : ∀ off,
    (∀ p ∈ l, p.function_call = none ∧
      containsSub (p.text.getD []) FINAL_ANSWER_TAG = false) →
    scanPhase off l =
      (l.map (fun p => (_handle_non_function_call_parts 0 p).1),
       (List.range l.length).map (fun k => OutElem.ref (off + k)),
       none) := by
  induction l with
  | nil =>
      intro off h
      rfl
  | cons p rest ih =>
      intro off h
      obtain ⟨hfc, hnofa⟩ := h p (List.mem_cons_self p rest)
      have hrest : ∀ q ∈ rest, q.function_call = none ∧
          containsSub (q.text.getD []) FINAL_ANSWER_TAG = false :=
        fun q hq => h q (List.mem_cons_of_mem p hq)
      have hcond : (optStrTruthy p.text &&
          containsSub (p.text.getD []) FINAL_ANSWER_TAG) = false := by
        rw [hnofa, Bool.and_false]
      have hsnd : (_handle_non_function_call_parts off p).2 = [OutElem.ref off] := by
        simp only [_handle_non_function_call_parts, hcond, Bool.false_eq_true, if_false]
      have hfsteq : (_handle_non_function_call_parts off p).1 =
          (_handle_non_function_call_parts 0 p).1 := by
        simp only [_handle_non_function_call_parts, hcond, Bool.false_eq_true, if_false]
      rw [scanPhase_cons_text off p rest hfc, ih (off + 1) hrest, hsnd, hfsteq]
      simp only [List.length_cons, range_map_ref_shift rest.length off,
        List.map_cons, List.singleton_append]

/-- C2 counterexample: for the pure-text input whose single fragment's
text contains the final-answer tag followed by a non-empty tail, the
output has two fragments, neither carrying the input fragment's text:
the fragment is replaced by the split head and tail, not preserved, so
the claim that every text fragment is preserved (with a thought flag set
iff its text starts with a narrative tag or contains the final-answer
tag) fails on this input. -/
theorem C2_counterexample :
    process_planning_response [{ text := some "/*FINAL_ANSWER*/x".toList }] =
      some [{ function_call := none, text := some "/*FINAL_ANSWER*/".toList,
              thought := some true },
            { function_call := none, text := some "x".toList, thought := none }] ∧
    ({ text := some "/*FINAL_ANSWER*/x".toList } : Part).function_call = none ∧
    ({ function_call := none, text := some "/*FINAL_ANSWER*/".toList,
       thought := some true } : Part).text ≠
      ({ text := some "/*FINAL_ANSWER*/x".toList } : Part).text ∧
    ({ function_call := none, text := some "x".toList,
       thought := none } : Part).text ≠
      ({ text := some "/*FINAL_ANSWER*/x".toList } : Part).text := by
  exact ⟨by decide, rfl, by decide, by decide⟩

/-- C2 (amended): for every non-empty input of pure text fragments (no
function calls, thought flags not yet set) none of whose texts contains
the final-answer tag, every fragment is preserved in the output at its
input position (same text, same function-call field, at most the thought
flag turned on), and a fragment's thought flag is set in the output iff
its text is truthy and starts with one of the five narrative tags.  The
original claim additionally let texts contain the final-answer tag; the
counterexample shows such fragments are replaced by split head/tail
fragments rather than preserved. -/
theorem C2_text_only_amended (parts : List Part) (hne : parts ≠ [])
    (hall : ∀ p ∈ parts, p.function_call = none ∧ p.thought ≠ some true ∧
      containsSub (p.text.getD []) FINAL_ANSWER_TAG = false) :
    ∃ out, process_planning_response parts = some out ∧
      out.length = parts.length ∧
      ∀ k, k < parts.length →
        (out.getD k default = parts.getD k default ∨
         out.getD k default = { parts.getD k default with thought := some true }) ∧
        (out.getD k default).text = (parts.getD k default).text ∧
        (out.getD k default).function_call = (parts.getD k default).function_call ∧
        ((out.getD k default).thought = some true ↔
          (optStrTruthy (parts.getD k default).text = true ∧
           startsWithAnyNarrativeTag ((parts.getD k default).text.getD []) = true)) := by
  have hall2 : ∀ p ∈ parts, p.function_call = none ∧
      containsSub (p.text.getD []) FINAL_ANSWER_TAG = false :=
    fun p hp => ⟨(hall p hp).1, (hall p hp).2.2⟩
  have hsc := scanPhase_text_only parts 0 hall2
  have hidx : (scanPhase 0 parts).2.2 = none := by rw [hsc]
  have hal := aliased_none_idx parts hne hidx
  have hst1 : (scanPhase 0 parts).1 =
      parts.map (fun p => (_handle_non_function_call_parts 0 p).1) := by rw [hsc]
  have hout1 : (scanPhase 0 parts).2.1 =
      (List.range parts.length).map (fun k => OutElem.ref (0 + k)) := by rw [hsc]
  have hstlen : (parts.map (fun p => (_handle_non_function_call_parts 0 p).1)).length =
      parts.length := List.length_map _ _
  have hmapres : ((List.range parts.length).map (fun k => OutElem.ref (0 + k))).map
      (resolveElem (parts.map (fun p => (_handle_non_function_call_parts 0 p).1))) =
      parts.map (fun p => (_handle_non_function_call_parts 0 p).1) := by
    rw [List.map_map]
    have hfun : (resolveElem (parts.map (fun p => (_handle_non_function_call_parts 0 p).1)) ∘
        fun k => OutElem.ref (0 + k)) =
        fun k => (parts.map (fun p => (_handle_non_function_call_parts 0 p).1)).getD
          k default := by
      funext k
      simp [resolveElem, Nat.zero_add]
    rw [hfun, ← hstlen]
    exact range_map_getD _ default
  refine ⟨parts.map (fun p => (_handle_non_function_call_parts 0 p).1), ?_, hstlen, ?_⟩
  · rw [process_planning_response, hal]
    simp only [Option.map_some']
    rw [hst1, hout1, hmapres]
  · intro k hk
    have hqmem : parts.getD k default ∈ parts := getD_mem_lt parts k hk default
    obtain ⟨hfc, hth, hnofa⟩ := hall _ hqmem
    have hgd : (parts.map (fun p => (_handle_non_function_call_parts 0 p).1)).getD
        k default = (_handle_non_function_call_parts 0 (parts.getD k default)).1 :=
      getD_map_lt _ parts k hk default default
    have hcond : (optStrTruthy (parts.getD k default).text &&
        containsSub ((parts.getD k default).text.getD []) FINAL_ANSWER_TAG) = false := by
      rw [hnofa, Bool.and_false]
    have hhandle : (_handle_non_function_call_parts 0 (parts.getD k default)).1 =
        (if (!((parts.getD k default).text.getD []).isEmpty &&
            startsWithAnyNarrativeTag ((parts.getD k default).text.getD [])) = true then
          _mark_as_thought (parts.getD k default)
         else parts.getD k default) := by
      simp only [_handle_non_function_call_parts, hcond, Bool.false_eq_true, if_false]
    by_cases hc : (!((parts.getD k default).text.getD []).isEmpty &&
        startsWithAnyNarrativeTag ((parts.getD k default).text.getD [])) = true
    · have hc2 := hc
      rw [Bool.and_eq_true] at hc2
      have htruthy : optStrTruthy (parts.getD k default).text = true := by
        rw [optStrTruthy_eq_not_isEmpty]
        exact hc2.1
      have hstar : startsWithAnyNarrativeTag ((parts.getD k default).text.getD []) = true :=
        hc2.2
      have hmk : _mark_as_thought (parts.getD k default) =
          { parts.getD k default with thought := some true } := by
        simp only [_mark_as_thought, htruthy, if_true]
      have hgd2 : (parts.map (fun p => (_handle_non_function_call_parts 0 p).1)).getD
          k default = { parts.getD k default with thought := some true } := by
        rw [hgd, hhandle, if_pos hc, hmk]
      refine ⟨Or.inr hgd2, by rw [hgd2], by rw [hgd2], ?_⟩
      rw [hgd2]
      constructor
      · intro _
        exact ⟨htruthy, hstar⟩
      · intro _
        rfl
    · have hgd2 : (parts.map (fun p => (_handle_non_function_call_parts 0 p).1)).getD
          k default = parts.getD k default := by
        rw [hgd, hhandle, if_neg hc]
      refine ⟨Or.inl hgd2, by rw [hgd2], by rw [hgd2], ?_⟩
      rw [hgd2]
      constructor
      · intro ht
        exact absurd ht hth
      · intro hrhs
        exfalso
        apply hc
        rw [Bool.and_eq_true]
        refine ⟨?_, hrhs.2⟩
        rw [← optStrTruthy_eq_not_isEmpty]
        exact hrhs.1

/-- Witness for the amended C2: a concrete two-fragment pure-text input,
one fragment starting with the planning tag and one plain; the hypotheses
hold and the conclusion follows by applying `C2_text_only_amended`. -/
theorem C2_witness :
    ([{ text := some "/*PLANNING*/ hi".toList }, { text := some "hello".toList }] ≠
      ([] : List Part)) ∧
    (∀ p ∈ ([{ text := some "/*PLANNING*/ hi".toList },
        { text := some "hello".toList }] : List Part),
      p.function_call = none ∧ p.thought ≠ some true ∧
      containsSub (p.text.getD []) FINAL_ANSWER_TAG = false) ∧
    (∃ out, process_planning_response
        [{ text := some "/*PLANNING*/ hi".toList }, { text := some "hello".toList }] =
          some out ∧
      out.length = ([{ text := some "/*PLANNING*/ hi".toList },
        { text := some "hello".toList }] : List Part).length ∧
      ∀ k, k < ([{ text := some "/*PLANNING*/ hi".toList },
        { text := some "hello".toList }] : List Part).length →
        (out.getD k default =
          ([{ text := some "/*PLANNING*/ hi".toList },
            { text := some "hello".toList }] : List Part).getD k default ∨
         out.getD k default =
          { ([{ text := some "/*PLANNING*/ hi".toList },
              { text := some "hello".toList }] : List Part).getD k default with
            thought := some true }) ∧
        (out.getD k default).text =
          (([{ text := some "/*PLANNING*/ hi".toList },
            { text := some "hello".toList }] : List Part).getD k default).text ∧
        (out.getD k default).function_call =
          (([{ text := some "/*PLANNING*/ hi".toList },
            { text := some "hello".toList }] : List Part).getD k default).function_call ∧
        ((out.getD k default).thought = some true ↔
          (optStrTruthy (([{ text := some "/*PLANNING*/ hi".toList },
            { text := some "hello".toList }] : List Part).getD k default).text = true ∧
           startsWithAnyNarrativeTag
            ((([{ text := some "/*PLANNING*/ hi".toList },
              { text := some "hello".toList }] : List Part).getD
                k default).text.getD []) = true))) :=
  ⟨by decide, by decide,
    C2_text_only_amended
      [{ text := some "/*PLANNING*/ hi".toList }, { text := some "hello".toList }]
      (by decide) (by decide)⟩

/-- C3 counterexample: an input of three function-call parts, the first
with a missing name.  The first kept action is at index 1, preceded only
by an action reference (no non-action fragment precedes it), yet the
output contains the action after it: the lookahead phase ran, so the
claim that the lookahead runs iff the first kept action is preceded by a
non-action fragment fails. -/
theorem C3_counterexample :
    process_planning_response
      [{ function_call := some { name := none } },
       { function_call := some { name := some "search".toList } },
       { function_call := some { name := some "more".toList } }] =
      some [{ function_call := some { name := some "search".toList } },
            { function_call := some { name := some "more".toList } }] ∧
    (([{ function_call := some { name := none } },
       { function_call := some { name := some "search".toList } },
       { function_call := some { name := some "more".toList } }] : List Part).all
      (fun p => p.function_call.isSome)) = true := by
  exact ⟨by decide, by decide⟩

/-- C3 (amended): the lookahead phase runs iff the first kept action
reference sits at input index greater than zero, i.e. is preceded by at
least one fragment of any kind — including skipped empty-named action
references, not only non-action fragments.  Concretely: after the first
kept action the output continues with the run of consecutive
function-call parts following it when its index is positive, and with
nothing when it is at index 0. -/
theorem C3_lookahead_amended (l1 : List Part) (p : Part) (l2 : List Part)
    (hfirst : ∀ q ∈ l1, keptFunctionCall q = false)
    (hkept : keptFunctionCall p = true) :
    ∃ pre, process_planning_response (l1 ++ p :: l2) =
      some (pre ++ p :: (if 0 < l1.length then
        l2.takeWhile (fun q => q.function_call.isSome) else [])) := by
  obtain ⟨fc, hfc, hname⟩ := keptFunctionCall_true_elim p hkept
  rcases Nat.eq_zero_or_pos l1.length with h0 | hpos
  · have hl1 : l1 = [] := List.length_eq_zero.mp h0
    subst hl1
    have hsc : scanPhase 0 (p :: l2) = (p :: l2, [OutElem.ref 0], some 0) :=
      scanPhase_cons_kept 0 p l2 fc hfc hname
    have hidx : (scanPhase 0 (p :: l2)).2.2 = some 0 := by rw [hsc]
    have hal := aliased_idx_zero (p :: l2) (by simp) hidx
    refine ⟨[], ?_⟩
    rw [List.nil_append, process_planning_response, hal, Option.map_some']
    rw [show (scanPhase 0 (p :: l2)).2.1 = [OutElem.ref 0] from by rw [hsc],
        show (scanPhase 0 (p :: l2)).1 = p :: l2 from by rw [hsc]]
    simp [resolveElem]
  · have hL : (l1 ++ p :: l2) ≠ [] := by
      cases l1 with
      | nil => simp
      | cons a t => simp
    have happ := scanPhase_append_no_kept l1 (p :: l2) 0 hfirst
    rw [Nat.zero_add] at happ
    have hsck : scanPhase l1.length (p :: l2) =
        (p :: l2, [OutElem.ref l1.length], some l1.length) :=
      scanPhase_cons_kept l1.length p l2 fc hfc hname
    rw [hsck] at happ
    have hidx : (scanPhase 0 (l1 ++ p :: l2)).2.2 = some l1.length := by rw [happ]
    have hal := aliased_idx_pos (l1 ++ p :: l2) hL l1.length hpos hidx
    have hst : (scanPhase 0 (l1 ++ p :: l2)).1 = (scanPhase 0 l1).1 ++ p :: l2 := by
      rw [happ]
    have hout : (scanPhase 0 (l1 ++ p :: l2)).2.1 =
        (scanPhase 0 l1).2.1 ++ [OutElem.ref l1.length] := by
      rw [happ]
    have hst1len : (scanPhase 0 l1).1.length = l1.length := scanPhase_length l1 0
    have hdrop : (scanPhase 0 (l1 ++ p :: l2)).1.drop (l1.length + 1) = l2 := by
      have e1 : (scanPhase 0 (l1 ++ p :: l2)).1.drop ((scanPhase 0 l1).1.length + 1) =
          ((scanPhase 0 (l1 ++ p :: l2)).1.drop (scanPhase 0 l1).1.length).drop 1 :=
        (List.drop_drop 1 (scanPhase 0 l1).1.length _).symm
      rw [← hst1len, e1, hst, drop_append_len]
      rfl
    have hlook := lookaheadPhase_resolved l2 (l1.length + 1)
      (scanPhase 0 (l1 ++ p :: l2)).1 hdrop
    have hrefp : resolveElem (scanPhase 0 (l1 ++ p :: l2)).1
        (OutElem.ref l1.length) = p := by
      simp only [resolveElem]
      rw [hst, ← hst1len]
      have e2 := getD_append_add (scanPhase 0 l1).1 (p :: l2) 0 default
      rw [Nat.add_zero] at e2
      rw [e2]
      rfl
    refine ⟨((scanPhase 0 l1).2.1).map
      (resolveElem (scanPhase 0 (l1 ++ p :: l2)).1), ?_⟩
    rw [process_planning_response, hal, Option.map_some']
    rw [hout, hdrop]
    rw [List.append_assoc, List.map_append, List.map_append, List.map_singleton,
        hrefp, hlook]
    rw [if_pos hpos]
    rfl

/-- Witness for the amended C3: a text fragment precedes the first kept
action, which is followed by one more action and a text fragment; the
conclusion follows by applying `C3_lookahead_amended`. -/
theorem C3_witness :
    (∀ q ∈ ([{ text := some "plan".toList }] : List Part),
      keptFunctionCall q = false) ∧
    keptFunctionCall { function_call := some { name := some "search".toList } } = true ∧
    (∃ pre, process_planning_response
        ([{ text := some "plan".toList }] ++
          ({ function_call := some { name := some "search".toList } } : Part) ::
          [{ function_call := some { name := some "more".toList } },
           { text := some "tail".toList }]) =
      some (pre ++ ({ function_call := some { name := some "search".toList } } : Part) ::
        (if 0 < ([{ text := some "plan".toList }] : List Part).length then
          ([{ function_call := some { name := some "more".toList } },
            { text := some "tail".toList }] : List Part).takeWhile
            (fun q => q.function_call.isSome)
         else []))) :=
  ⟨by decide, by decide,
    C3_lookahead_amended [{ text := some "plan".toList }]
      { function_call := some { name := some "search".toList } }
      [{ function_call := some { name := some "more".toList } },
       { text := some "tail".toList }] (by decide) (by decide)⟩

/-- C5 counterexample: an empty-named action reference that follows the
first kept action is appended by the lookahead phase and appears in the
output, so the claim that empty- or missing-named action references never
appear in the output fails. -/
theorem C5_counterexample :
    process_planning_response
      [{ function_call := some { name := none } },
       { function_call := some { name := some "search".toList } },
       { function_call := some { name := some [] } }] =
      some [{ function_call := some { name := some "search".toList } },
            { function_call := some { name := some [] } }] ∧
    ({ function_call := some { name := some [] } } : Part).function_call =
      some { name := some [] } ∧
    optStrTruthy (some []) = false := by
  exact ⟨by decide, rfl, rfl⟩

/-- C5 (amended): an action reference with an empty or missing name can
appear in the output only through the lookahead phase: whenever the output
contains a part with a falsy-named function call, the input decomposes as
`l1 ++ p :: l2` where `p` is the first kept action, `l1` is non-empty (so
the lookahead ran) and the falsy-named part lies in `l2`.  During the
initial scan such parts are silently dropped, and no error is raised. -/
theorem C5_empty_name_amended (parts : List Part) (out : List Part)
    (hout : process_planning_response parts = some out)
    (q : Part) (hq : q ∈ out) (fc : FunctionCall)
    (hfc : q.function_call = some fc) (hname : optStrTruthy fc.name = false) :
    ∃ l1 p l2, parts = l1 ++ p :: l2 ∧ 0 < l1.length ∧
      keptFunctionCall p = true ∧ (∀ r ∈ l1, keptFunctionCall r = false) ∧
      q ∈ l2 := by
  have hne : parts ≠ [] := by
    intro h
    rw [h] at hout
    exact Option.noConfusion hout
  have hscan_contra : ∀ e ∈ (scanPhase 0 parts).2.1,
      resolveElem (scanPhase 0 parts).1 e = q → False := by
    intro e he hres
    cases e with
    | new r =>
        have hrn : r.function_call = none := scanPhase_out_new parts 0 r he
        have hqr : q = r := hres.symm
        rw [hqr, hrn] at hfc
        exact Option.noConfusion hfc
    | ref j =>
        obtain ⟨k, hk, hjk, hcase⟩ := scanPhase_out_ref parts 0 j he
        rw [Nat.zero_add] at hjk
        subst hjk
        have hres2 : (scanPhase 0 parts).1.getD j default = q := hres
        have hqfc : q.function_call = (parts.getD j default).function_call := by
          rw [← hres2]
          rcases scanPhase_state_pointwise parts 0 j with hpw | hpw
          · rw [hpw]
          · rw [hpw]
        rcases hcase with hcl | hkept2
        · rw [hcl.1, hfc] at hqfc
          exact Option.noConfusion hqfc
        · obtain ⟨fc2, hfc2, hname2⟩ := keptFunctionCall_true_elim _ hkept2
          rw [hfc2, hfc] at hqfc
          injection hqfc with he2
          rw [he2] at hname
          rw [hname] at hname2
          exact Bool.noConfusion hname2
  cases hidx : (scanPhase 0 parts).2.2 with
  | none =>
      exfalso
      rw [process_planning_response, aliased_none_idx parts hne hidx,
        Option.map_some'] at hout
      have hout2 : out = ((scanPhase 0 parts).2.1).map
          (resolveElem (scanPhase 0 parts).1) := by
        injection hout with h2
        exact h2.symm
      rw [hout2] at hq
      obtain ⟨e, he, hres⟩ := List.mem_map.mp hq
      exact hscan_contra e he hres
  | some i =>
      rcases Nat.eq_zero_or_pos i with h0 | hpos
      · exfalso
        rw [h0] at hidx
        rw [process_planning_response, aliased_idx_zero parts hne hidx,
          Option.map_some'] at hout
        have hout2 : out = ((scanPhase 0 parts).2.1).map
            (resolveElem (scanPhase 0 parts).1) := by
          injection hout with h2
          exact h2.symm
        rw [hout2] at hq
        obtain ⟨e, he, hres⟩ := List.mem_map.mp hq
        exact hscan_contra e he hres
      · obtain ⟨l1, kp, l2, hdec, hi, hkept, hfirst, hstdec, houtdec⟩ :=
          scanPhase_find parts 0 i hidx
        rw [Nat.zero_add] at hi
        have hst1len : (scanPhase 0 l1).1.length = l1.length := scanPhase_length l1 0
        have hdrop : (scanPhase 0 parts).1.drop (i + 1) = l2 := by
          have e1 : (scanPhase 0 parts).1.drop ((scanPhase 0 l1).1.length + 1) =
              ((scanPhase 0 parts).1.drop (scanPhase 0 l1).1.length).drop 1 :=
            (List.drop_drop 1 (scanPhase 0 l1).1.length _).symm
          rw [hi, ← hst1len, e1, hstdec, drop_append_len]
          rfl
        rw [process_planning_response, aliased_idx_pos parts hne i hpos hidx,
          Option.map_some'] at hout
        have hout2 : out = ((scanPhase 0 parts).2.1 ++
            lookaheadPhase (i + 1) ((scanPhase 0 parts).1.drop (i + 1))).map
            (resolveElem (scanPhase 0 parts).1) := by
          injection hout with h2
          exact h2.symm
        rw [hout2] at hq
        obtain ⟨e, he, hres⟩ := List.mem_map.mp hq
        rw [List.mem_append] at he
        rcases he with he | he
        · exact absurd hres (by intro h2; exact hscan_contra e he h2)
        · rw [hdrop] at he
          obtain ⟨k, hk, hek, hsome⟩ := lookaheadPhase_ref l2 (i + 1) e he
          refine ⟨l1, kp, l2, hdec, by omega, hkept, hfirst, ?_⟩
          rw [hek] at hres
          have hres2 : (scanPhase 0 parts).1.getD ((i + 1) + k) default = q := hres
          have harith : (i + 1) + k = (scanPhase 0 l1).1.length + (k + 1) := by
            rw [hst1len]
            omega
          rw [harith, hstdec] at hres2
          rw [getD_append_add (scanPhase 0 l1).1 (kp :: l2) (k + 1) default] at hres2
          have hres3 : l2.getD k default = q := by
            simpa using hres2
          rw [← hres3]
          exact getD_mem_lt l2 k hk default

/-- Witness for the amended C5: the empty-named action appearing in the
output after the first kept action at index 1 is located, via
`C5_empty_name_amended`, strictly after that first kept action. -/
theorem C5_witness :
    process_planning_response
      [{ function_call := some { name := none } },
       { function_call := some { name := some "search".toList } },
       { function_call := some { name := some [] } }] =
      some [{ function_call := some { name := some "search".toList } },
            { function_call := some { name := some [] } }] ∧
    (({ function_call := some { name := some [] } } : Part) ∈
      ([{ function_call := some { name := some "search".toList } },
        { function_call := some { name := some [] } }] : List Part)) ∧
    ({ function_call := some { name := some [] } } : Part).function_call =
      some { name := some [] } ∧
    optStrTruthy ({ name := some ([] : List Char) } : FunctionCall).name = false ∧
    (∃ l1 p l2,
      ([{ function_call := some { name := none } },
        { function_call := some { name := some "search".toList } },
        { function_call := some { name := some [] } }] : List Part) = l1 ++ p :: l2 ∧
      0 < l1.length ∧ keptFunctionCall p = true ∧
      (∀ r ∈ l1, keptFunctionCall r = false) ∧
      ({ function_call := some { name := some [] } } : Part) ∈ l2) :=
  ⟨by decide, by decide, rfl, rfl,
    C5_empty_name_amended
      [{ function_call := some { name := none } },
       { function_call := some { name := some "search".toList } },
       { function_call := some { name := some [] } }]
      [{ function_call := some { name := some "search".toList } },
       { function_call := some { name := some [] } }]
      (by decide)
      { function_call := some { name := some [] } }
      (by decide)
      { name := some [] } rfl rfl⟩

/-- C7 counterexample: a text fragment whose text ends with the
final-answer tag.  The output contains a thought-marked fragment with the
same text, but it is a newly constructed part: the caller's part list is
unchanged after the call and the original fragment's thought flag is not
set, contradicting the claim that every thought-marked output fragment
has the flag visible on the corresponding caller's fragment. -/
theorem C7_counterexample :
    process_planning_response [{ text := some "a/*FINAL_ANSWER*/".toList }] =
      some [{ function_call := none, text := some "a/*FINAL_ANSWER*/".toList,
              thought := some true }] ∧
    processPostState [{ text := some "a/*FINAL_ANSWER*/".toList }] =
      [{ text := some "a/*FINAL_ANSWER*/".toList }] ∧
    ({ text := some "a/*FINAL_ANSWER*/".toList } : Part).thought ≠ some true := by
  exact ⟨by decide, by decide, by decide⟩

/-- C7 (amended): the prefix-tag rule does mark in place: for a text
fragment with no final-answer tag whose text starts with a narrative tag,
scanned at index `l1.length` (after non-kept fragments only), the
caller's part list after the call holds the fragment with `thought`
set at that very index, and the output contains the alias of that index
(no copy).  Fragments produced by the final-answer split, by contrast,
are newly constructed and leave the caller's fragment unmutated, as the
counterexample shows. -/
theorem C7_mark_in_place_amended (l1 : List Part) (p : Part) (l2 : List Part)
    (t : List Char)
    (hnk : ∀ q ∈ l1, keptFunctionCall q = false)
    (hfc : p.function_call = none)
    (ht : p.text = some t) (hne : t ≠ [])
    (hnofa : containsSub t FINAL_ANSWER_TAG = false)
    (htag : startsWithAnyNarrativeTag t = true) :
    ∃ st outE, process_planning_response_aliased (l1 ++ p :: l2) = some (st, outE) ∧
      st.getD l1.length default = { p with thought := some true } ∧
      OutElem.ref l1.length ∈ outE ∧
      processPostState (l1 ++ p :: l2) = st := by
  have hL : (l1 ++ p :: l2) ≠ [] := by
    cases l1 with
    | nil => simp
    | cons a t2 => simp
  have happ := scanPhase_append_no_kept l1 (p :: l2) 0 hnk
  rw [Nat.zero_add] at happ
  have hcond : (optStrTruthy p.text &&
      containsSub (p.text.getD []) FINAL_ANSWER_TAG) = false := by
    rw [ht, Option.getD_some, hnofa, Bool.and_false]
  have htruthy : optStrTruthy p.text = true := by
    rw [ht]
    cases t with
    | nil => exact absurd rfl hne
    | cons c ts => rfl
  have htempty : t.isEmpty = false := by
    cases t with
    | nil => exact absurd rfl hne
    | cons c ts => rfl
  have hcond2 : (optStrTruthy (some t) && containsSub t FINAL_ANSWER_TAG) = false := by
    rw [hnofa, Bool.and_false]
  have htruthy2 : optStrTruthy (some t) = true := by
    cases t with
    | nil => exact absurd rfl hne
    | cons c ts => rfl
  have hh1 : (_handle_non_function_call_parts l1.length p).1 =
      { p with thought := some true } := by
    simp only [_handle_non_function_call_parts, ht, Option.getD_some, hnofa,
      Bool.and_false, Bool.false_eq_true, if_false, htempty, Bool.not_false, htag,
      Bool.and_self, if_true, _mark_as_thought, htruthy2]
  have hh2 : (_handle_non_function_call_parts l1.length p).2 =
      [OutElem.ref l1.length] := by
    simp only [_handle_non_function_call_parts, hcond, Bool.false_eq_true, if_false]
  rw [scanPhase_cons_text l1.length p l2 hfc] at happ
  have hst : (scanPhase 0 (l1 ++ p :: l2)).1 =
      (scanPhase 0 l1).1 ++ ({ p with thought := some true } ::
        (scanPhase (l1.length + 1) l2).1) := by
    rw [happ, hh1]
  have hout : (scanPhase 0 (l1 ++ p :: l2)).2.1 =
      (scanPhase 0 l1).2.1 ++ ([OutElem.ref l1.length] ++
        (scanPhase (l1.length + 1) l2).2.1) := by
    rw [happ, hh2]
  have hidx : (scanPhase 0 (l1 ++ p :: l2)).2.2 =
      (scanPhase (l1.length + 1) l2).2.2 := by
    rw [happ]
  have hst1len : (scanPhase 0 l1).1.length = l1.length := scanPhase_length l1 0
  have hgd : (scanPhase 0 (l1 ++ p :: l2)).1.getD l1.length default =
      { p with thought := some true } := by
    rw [hst]
    have e2 := getD_append_add (scanPhase 0 l1).1
      ({ p with thought := some true } :: (scanPhase (l1.length + 1) l2).1) 0 default
    rw [hst1len] at e2
    exact e2
  have hmem : OutElem.ref l1.length ∈ (scanPhase 0 (l1 ++ p :: l2)).2.1 := by
    rw [hout]
    apply List.mem_append.mpr
    right
    apply List.mem_append.mpr
    left
    exact List.mem_singleton.mpr rfl
  cases hidx2 : (scanPhase (l1.length + 1) l2).2.2 with
  | none =>
      have hidx3 : (scanPhase 0 (l1 ++ p :: l2)).2.2 = none := by rw [hidx, hidx2]
      have hal := aliased_none_idx _ hL hidx3
      refine ⟨_, _, hal, hgd, hmem, ?_⟩
      simp only [processPostState, hal]
  | some i2 =>
      obtain ⟨l1x, px, l2x, _, hi2, _, _, _, _⟩ :=
        scanPhase_find l2 (l1.length + 1) i2 hidx2
      have hpos : 0 < i2 := by omega
      have hidx3 : (scanPhase 0 (l1 ++ p :: l2)).2.2 = some i2 := by rw [hidx, hidx2]
      have hal := aliased_idx_pos _ hL i2 hpos hidx3
      refine ⟨_, _, hal, hgd, ?_, ?_⟩
      · apply List.mem_append.mpr
        left
        exact hmem
      · simp only [processPostState, hal]

/-- Witness for the amended C7: a reasoning-tagged fragment preceded by a
plain text fragment; `C7_mark_in_place_amended` applies. -/
theorem C7_witness :
    (∀ q ∈ ([{ text := some "intro".toList }] : List Part),
      keptFunctionCall q = false) ∧
    ({ text := some "/*REASONING*/z".toList } : Part).function_call = none ∧
    ({ text := some "/*REASONING*/z".toList } : Part).text =
      some "/*REASONING*/z".toList ∧
    "/*REASONING*/z".toList ≠ [] ∧
    containsSub "/*REASONING*/z".toList FINAL_ANSWER_TAG = false ∧
    startsWithAnyNarrativeTag "/*REASONING*/z".toList = true ∧
    (∃ st outE, process_planning_response_aliased
        ([{ text := some "intro".toList }] ++
          ({ text := some "/*REASONING*/z".toList } : Part) :: []) = some (st, outE) ∧
      st.getD ([{ text := some "intro".toList }] : List Part).length default =
        { ({ text := some "/*REASONING*/z".toList } : Part) with
          thought := some true } ∧
      OutElem.ref ([{ text := some "intro".toList }] : List Part).length ∈ outE ∧
      processPostState ([{ text := some "intro".toList }] ++
        ({ text := some "/*REASONING*/z".toList } : Part) :: []) = st) :=
  ⟨by decide, rfl, rfl, by decide, by decide, by decide,
    C7_mark_in_place_amended [{ text := some "intro".toList }]
      { text := some "/*REASONING*/z".toList } []
      "/*REASONING*/z".toList (by decide) rfl rfl (by decide) (by decide) (by decide)⟩

theorem handle_fst_of_final_answer (off : Nat) (p : Part)
    (hc : (optStrTruthy p.text &&
      containsSub (p.text.getD []) FINAL_ANSWER_TAG) = true) :
    (_handle_non_function_call_parts off p).1 = p := by
  simp only [_handle_non_function_call_parts, hc, if_true]

theorem scanPhase_state_final_answer (l : List Part) : ∀ off k, k < l.length →
    (l.getD k default).function_call = none →
    (optStrTruthy (l.getD k default).text &&
      containsSub ((l.getD k default).text.getD []) FINAL_ANSWER_TAG) = true →
    (scanPhase off l).1.getD k default = l.getD k default := by
  induction l with
  | nil =>
      intro off k hk
      simp at hk
  | cons p rest ih =>
      intro off k hk hfcn hcond
      cases hfc0 : p.function_call with
      | none =>
          rw [scanPhase_cons_text off p rest hfc0]
          cases k with
          | zero =>
              simpa using handle_fst_of_final_answer off p (by simpa using hcond)
          | succ m =>
              have hm : m < rest.length := by simpa using hk
              simpa using ih (off + 1) m hm (by simpa using hfcn) (by simpa using hcond)
      | some fc =>
          cases hname : optStrTruthy fc.name with
          | true =>
              rw [scanPhase_cons_kept off p rest fc hfc0 hname]
          | false =>
              rw [scanPhase_cons_skip off p rest fc hfc0 hname]
              cases k with
              | zero =>
                  exfalso
                  have : p.function_call = none := by simpa using hfcn
                  rw [hfc0] at this
                  exact Option.noConfusion this
              | succ m =>
                  have hm : m < rest.length := by simpa using hk
                  simpa using ih (off + 1) m hm (by simpa using hfcn)
                    (by simpa using hcond)

/-- C10: the segmenter never modifies the text or function-call fields of
any input fragment and never clears a thought flag; its only in-place
change is setting `thought` to `true`.  A text fragment whose text
contains the final-answer tag is never mutated at all, and its slot is
never aliased into the output (the emitted head and tail are newly built
fragments). -/
theorem C10_frame_effects (parts : List Part) (st : List Part) (outE : List OutElem)
    (h : process_planning_response_aliased parts = some (st, outE)) :
    st.length = parts.length ∧
    (∀ k, (st.getD k default).text = (parts.getD k default).text ∧
          (st.getD k default).function_call = (parts.getD k default).function_call ∧
          (st.getD k default = parts.getD k default ∨
           st.getD k default = { parts.getD k default with thought := some true })) ∧
    (∀ k, k < parts.length →
      (parts.getD k default).function_call = none →
      optStrTruthy (parts.getD k default).text = true →
      containsSub ((parts.getD k default).text.getD []) FINAL_ANSWER_TAG = true →
      st.getD k default = parts.getD k default ∧ OutElem.ref k ∉ outE) := by
  have hne : parts ≠ [] := by
    intro hp
    rw [hp] at h
    exact Option.noConfusion h
  have hmain : st = (scanPhase 0 parts).1 ∧
      (outE = (scanPhase 0 parts).2.1 ∨
       (∃ i, 0 < i ∧ (scanPhase 0 parts).2.2 = some i ∧
        outE = (scanPhase 0 parts).2.1 ++
          lookaheadPhase (i + 1) ((scanPhase 0 parts).1.drop (i + 1)))) := by
    cases hidx : (scanPhase 0 parts).2.2 with
    | none =>
        have hal := (aliased_none_idx parts hne hidx).symm.trans h
        injection hal with hal2
        injection hal2 with hal3 hal4
        exact ⟨hal3.symm, Or.inl hal4.symm⟩
    | some i =>
        rcases Nat.eq_zero_or_pos i with h0 | hpos
        · rw [h0] at hidx
          have hal := (aliased_idx_zero parts hne hidx).symm.trans h
          injection hal with hal2
          injection hal2 with hal3 hal4
          exact ⟨hal3.symm, Or.inl hal4.symm⟩
        · have hal := (aliased_idx_pos parts hne i hpos hidx).symm.trans h
          injection hal with hal2
          injection hal2 with hal3 hal4
          exact ⟨hal3.symm, Or.inr ⟨i, hpos, rfl, hal4.symm⟩⟩
  obtain ⟨hst, houtcase⟩ := hmain
  refine ⟨by rw [hst]; exact scanPhase_length parts 0, ?_, ?_⟩
  · intro k
    rcases scanPhase_state_pointwise parts 0 k with h1 | h1
    · rw [hst, h1]
      exact ⟨rfl, rfl, Or.inl rfl⟩
    · rw [hst, h1]
      exact ⟨rfl, rfl, Or.inr rfl⟩
  · intro k hk hfcn htr hcont
    have hcond : (optStrTruthy (parts.getD k default).text &&
        containsSub ((parts.getD k default).text.getD []) FINAL_ANSWER_TAG) = true := by
      rw [htr, hcont]
      rfl
    refine ⟨by rw [hst]; exact scanPhase_state_final_answer parts 0 k hk hfcn hcond, ?_⟩
    intro hmem
    have hscan_no : OutElem.ref k ∉ (scanPhase 0 parts).2.1 := by
      intro hmem2
      obtain ⟨k2, hk2, hjk2, hcase⟩ := scanPhase_out_ref parts 0 k hmem2
      rw [Nat.zero_add] at hjk2
      subst hjk2
      rcases hcase with ⟨_, hcf⟩ | hkept2
      · rw [hcond] at hcf
        exact Bool.noConfusion hcf
      · obtain ⟨fc2, hfc2, _⟩ := keptFunctionCall_true_elim _ hkept2
        rw [hfcn] at hfc2
        exact Option.noConfusion hfc2
    rcases houtcase with hout | ⟨i, hpos, hidx, hout⟩
    · rw [hout] at hmem
      exact hscan_no hmem
    · rw [hout] at hmem
      rw [List.mem_append] at hmem
      rcases hmem with hmem | hmem
      · exact hscan_no hmem
      · obtain ⟨l1, kp, l2, hdec, hi, _, _, hstdec, _⟩ := scanPhase_find parts 0 i hidx
        rw [Nat.zero_add] at hi
        have hst1len : (scanPhase 0 l1).1.length = l1.length := scanPhase_length l1 0
        have hdrop : (scanPhase 0 parts).1.drop (i + 1) = l2 := by
          have e1 : (scanPhase 0 parts).1.drop ((scanPhase 0 l1).1.length + 1) =
              ((scanPhase 0 parts).1.drop (scanPhase 0 l1).1.length).drop 1 :=
            (List.drop_drop 1 (scanPhase 0 l1).1.length _).symm
          rw [hi, ← hst1len, e1, hstdec, drop_append_len]
          rfl
        rw [hdrop] at hmem
        obtain ⟨k2, hk2, hek2, hsome⟩ := lookaheadPhase_ref l2 (i + 1) _ hmem
        injection hek2 with hkk
        have hkparts : (parts.getD k default).function_call =
            (l2.getD k2 default).function_call := by
          rw [hdec, hkk]
          have harith : (i + 1) + k2 = l1.length + (k2 + 1) := by omega
          rw [harith, getD_append_add l1 (kp :: l2) (k2 + 1) default]
          rfl
        rw [hfcn] at hkparts
        rw [← hkparts] at hsome
        exact Bool.noConfusion hsome


/-- Witness for C10: on `c10parts` the hypothesis of `C10_frame_effects`
holds by computation and its conclusion follows by applying it. -/
theorem C10_witness :
    process_planning_response_aliased c10parts = some (c10state, c10out) ∧
    (c10state.length = c10parts.length ∧
    (∀ k, (c10state.getD k default).text = (c10parts.getD k default).text ∧
          (c10state.getD k default).function_call =
            (c10parts.getD k default).function_call ∧
          (c10state.getD k default = c10parts.getD k default ∨
           c10state.getD k default =
             { c10parts.getD k default with thought := some true })) ∧
    (∀ k, k < c10parts.length →
      (c10parts.getD k default).function_call = none →
      optStrTruthy (c10parts.getD k default).text = true →
      containsSub ((c10parts.getD k default).text.getD []) FINAL_ANSWER_TAG = true →
      c10state.getD k default = c10parts.getD k default ∧
        OutElem.ref k ∉ c10out)) :=
  ⟨by decide, C10_frame_effects c10parts c10state c10out (by decide)⟩

/-! ### Instruction builder -/

/-- C8: `build_planning_instruction` ignores both of its arguments: any
two calls, with arguments of arbitrary types, return the identical fixed
string, so repeated calls are deterministic and free of observable
effects in the embedding. -/
theorem C8_ignores_arguments {A B C D : Type} (c1 : A) (r1 : B) (c2 : C) (r2 : D) :
    build_planning_instruction c1 r1 = build_planning_instruction c2 r2 ∧
    build_planning_instruction c1 r1 = _build_reflection_planner_instruction :=
  ⟨rfl, rfl⟩

theorem containsSub_iff_parts (t s : List Char) :
    containsSub t s = true ↔ ∃ a b, t = a ++ s ++ b := by
  rw [containsSub_eq_true_iff_occurrence]
  constructor
  · intro hex
    rcases hex with ⟨j, hj, hp⟩
    have hpre : s <+: t.drop j := List.isPrefixOf_iff_prefix.mp hp
    obtain ⟨b, hb⟩ := hpre
    refine ⟨t.take j, b, ?_⟩
    calc t = t.take j ++ t.drop j := (List.take_append_drop j t).symm
    _ = t.take j ++ (s ++ b) := by rw [hb]
    _ = t.take j ++ s ++ b := by rw [List.append_assoc]
  · intro hex
    rcases hex with ⟨a, b, hab⟩
    refine ⟨a.length, ?_, ?_⟩
    · rw [hab, List.append_assoc, List.length_append]
      omega
    · rw [hab, List.append_assoc, drop_append_len]
      exact List.isPrefixOf_iff_prefix.mpr ⟨b, rfl⟩

theorem containsSub_append_left (u t s : List Char)
    (h : containsSub t s = true) : containsSub (u ++ t) s = true := by
  rw [containsSub_iff_parts] at h ⊢
  obtain ⟨a, b, hab⟩ := h
  refine ⟨u ++ a, b, ?_⟩
  rw [hab]
  simp [List.append_assoc]

theorem containsSub_append_right (t v s : List Char)
    (h : containsSub t s = true) : containsSub (t ++ v) s = true := by
  rw [containsSub_iff_parts] at h ⊢
  obtain ⟨a, b, hab⟩ := h
  refine ⟨a, b ++ v, ?_⟩
  rw [hab]
  simp [List.append_assoc]

theorem containsSub_here_right (u s : List Char) :
    containsSub (u ++ s) s = true := by
  rw [containsSub_iff_parts]
  refine ⟨u, [], ?_⟩
  simp

theorem hl_contains_planning :
    containsSub high_level_preamble PLANNING_TAG = true := by
  unfold high_level_preamble
  iterate 11 apply containsSub_append_right
  exact containsSub_here_right _ _

theorem hl_contains_action :
    containsSub high_level_preamble ACTION_TAG = true := by
  unfold high_level_preamble
  iterate 9 apply containsSub_append_right
  exact containsSub_here_right _ _

theorem hl_contains_reasoning :
    containsSub high_level_preamble REASONING_TAG = true := by
  unfold high_level_preamble
  iterate 7 apply containsSub_append_right
  exact containsSub_here_right _ _

theorem hl_contains_reflection :
    containsSub high_level_preamble REFLECTION_TAG = true := by
  unfold high_level_preamble
  iterate 5 apply containsSub_append_right
  exact containsSub_here_right _ _

theorem hl_contains_replanning :
    containsSub high_level_preamble REPLANNING_TAG = true := by
  unfold high_level_preamble
  iterate 3 apply containsSub_append_right
  exact containsSub_here_right _ _

theorem hl_contains_final_answer :
    containsSub high_level_preamble FINAL_ANSWER_TAG = true := by
  unfold high_level_preamble
  iterate 1 apply containsSub_append_right
  exact containsSub_here_right _ _

theorem build_contains_of_hl (s : List Char)
    (h : containsSub high_level_preamble s = true) :
    containsSub _build_reflection_planner_instruction s = true := by
  have e : _build_reflection_planner_instruction =
      (high_level_preamble ++ "\n\n".toList) ++
        joinWithSep "\n\n".toList [planning_preamble, reasoning_preamble,
          reflection_preamble, replanning_preamble, final_answer_preamble,
          tool_code_without_python_libraries_preamble] := rfl
  rw [e]
  apply containsSub_append_right
  apply containsSub_append_right
  exact h

/-- C9: the instruction string is the blank-line join of exactly the seven
fixed prose blocks, and it contains each of the six tags as a substring. -/
theorem C9_instruction_seven_blocks :
    _build_reflection_planner_instruction =
      joinWithSep "\n\n".toList [high_level_preamble, planning_preamble,
        reasoning_preamble, reflection_preamble, replanning_preamble,
        final_answer_preamble, tool_code_without_python_libraries_preamble] ∧
    containsSub _build_reflection_planner_instruction PLANNING_TAG = true ∧
    containsSub _build_reflection_planner_instruction REASONING_TAG = true ∧
    containsSub _build_reflection_planner_instruction ACTION_TAG = true ∧
    containsSub _build_reflection_planner_instruction REFLECTION_TAG = true ∧
    containsSub _build_reflection_planner_instruction REPLANNING_TAG = true ∧
    containsSub _build_reflection_planner_instruction FINAL_ANSWER_TAG = true :=
  ⟨rfl,
    build_contains_of_hl PLANNING_TAG hl_contains_planning,
    build_contains_of_hl REASONING_TAG hl_contains_reasoning,
    build_contains_of_hl ACTION_TAG hl_contains_action,
    build_contains_of_hl REFLECTION_TAG hl_contains_reflection,
    build_contains_of_hl REPLANNING_TAG hl_contains_replanning,
    build_contains_of_hl FINAL_ANSWER_TAG hl_contains_final_answer⟩
